import Mathlib

/-!
# Catch2 test-case registry: ordering, filtering and duplicate detection

A shallow embedding of `src/catch2/internal/catch_test_case_registry_impl.cpp`
and a verification of its ordering engine (`sortTests`), its filter engine
(`filterTests`), its duplicate detection (`enforceNoDuplicateTestCases`) and the
caching getter of `TestRegistry`.

Conventions of the embedding:

* a `std::string` is the list of its bytes (`ByteString`);
* a `std::vector` is a `List`, `push_back` appends at the end;
* `uint64_t` arithmetic is arithmetic on `Nat` reduced modulo `2 ^ 64`;
* an exception thrown by `CATCH_ENFORCE` / `CATCH_INTERNAL_ERROR` is the `error`
  case of `Except CatchError`;
* the shared random number generator is threaded through explicitly;
* what the C++ implementation leaves open (signedness of plain `char`, the order
  `std::sort` gives to equivalent elements) is a parameter, `Platform`; the
  `std::sort` of libstdc++ is embedded as one such implementation.
-/

namespace Catch

/-! ## Data model -/

/-- One byte of a `std::string`. -/
abbrev Byte := Fin 256

/-- A `std::string`, as the sequence of its bytes. -/
abbrev ByteString := List Byte

/-- A source location: file name and line number. -/
structure SourceLineInfo where
  file : ByteString
  line : Nat
deriving DecidableEq, Repr

/-- The descriptor of a test case. Only the members the registry reads are kept:
the name, the tags, the source location and the two properties queried through
`isHidden()` and `throws()`. -/
structure TestCaseInfo where
  name : ByteString
  tags : List ByteString
  lineInfo : SourceLineInfo
  isHidden : Bool
  throws : Bool
deriving DecidableEq, Repr

/-- A handle pairs a descriptor with an invoker; the invoker object is
represented by a number standing for its address. -/
structure TestCaseHandle where
  m_info : TestCaseInfo
  m_invoker : Nat
deriving DecidableEq, Repr

/-- The accessor `TestCaseHandle::getTestCaseInfo()`. -/
def TestCaseHandle.getTestCaseInfo (h : TestCaseHandle) : TestCaseInfo := h.m_info

/-- The type of an identity: name, tags and source location (file, line), ordered
lexicographically component after component. -/
abbrev Identity := Lex (ByteString × Lex (List ByteString × Lex (ByteString × Nat)))

/-- The identity `(name, tags, sourceLocation)` of a descriptor. -/
def TestCaseInfo.identity (t : TestCaseInfo) : Identity :=
  toLex (t.name, toLex (t.tags, toLex (t.lineInfo.file, t.lineInfo.line)))

/-- Modelled from the spec: `operator<` of TestCaseInfo is declared outside this
file; descriptors are ordered by `(name, tags, sourceLocation)`. -/
def TestCaseInfo.lt (a b : TestCaseInfo) : Bool := decide (a.identity < b.identity)

/-- Modelled from the spec: `operator<` of TestCaseHandle is declared outside this
file; a handle is compared by delegating to its descriptor. -/
def TestCaseHandle.lt (a b : TestCaseHandle) : Bool :=
  a.getTestCaseInfo.lt b.getTestCaseInfo

/-- The enumeration `RunTests::InWhatOrder`. A C++ enumeration object can hold a
value that is none of its enumerators; `unrecognised` stands for those. -/
inductive RunTests.InWhatOrder where
  | InDeclarationOrder
  | InLexicographicalOrder
  | InRandomOrder
  | unrecognised (value : Nat)
deriving DecidableEq, Repr

/-- The part of `IConfig` the registry reads. -/
structure IConfig where
  runOrder : RunTests.InWhatOrder
  rngSeed : Nat
  allowThrows : Bool

/-- The part of `TestSpec` the registry reads: an opaque matcher. `matchesInfo` is
the member function `TestSpec::matches` (`matches` is a reserved word here). -/
structure TestSpec where
  hasFilters : Bool
  matchesInfo : TestCaseInfo → Bool

/-- The failures the registry raises. `enforce` is the `CATCH_ENFORCE` of
`enforceNoDuplicateTestCases`, with the three values streamed into its message:
the test name, the "First seen at" location and the "Redefined at" location.
`internalError` is `CATCH_INTERNAL_ERROR` with its message. -/
inductive CatchError where
  | enforce (name : ByteString) (firstSeen redefined : SourceLineInfo)
  | internalError (message : String)
deriving DecidableEq, Repr

deriving instance DecidableEq for Except

/-! ## External collaborators -/

/-- Modelled from the spec: the seeded generator `SimplePcg32` is defined outside
this file. It is deterministic given a seed, `next` yields a value and the
advanced state; `seed s` is the state of the generator freshly seeded with `s`. -/
structure SimplePcg32 (σ : Type) where
  seed : Nat → σ
  next : σ → Nat × σ

/-- One call of `SimplePcg32::operator()`: a 32-bit value and the advanced state. -/
def SimplePcg32.call {σ : Type} (G : SimplePcg32 σ) (s : σ) : Nat × σ :=
  ((G.next s).1 % 2 ^ 32, (G.next s).2)

/-- What the C++ standard asks of the comparison given to `std::sort`: a strict
weak ordering. -/
structure StrictWeakOrdering {α : Type} (lt : α → α → Bool) : Prop where
  irrefl : ∀ a, lt a a = false
  trans : ∀ a b c, lt a b = true → lt b c = true → lt a c = true
  incomp_trans : ∀ a b c, lt b a = false → lt c b = false → lt c a = false

/-- The C++ implementation the program is built with, as far as the registry
depends on it: whether plain `char` is signed, and `std::sort`, of which the
standard fixes only that the result is a sorted rearrangement of the input (the
relative order of equivalent elements is left open). -/
structure Platform where
  charIsSigned : Bool
  sort : {α : Type} → (α → α → Bool) → List α → List α
  sort_perm : ∀ {α : Type} (lt : α → α → Bool), StrictWeakOrdering lt →
    ∀ l : List α, (sort lt l).Perm l
  sort_sorted : ∀ {α : Type} (lt : α → α → Bool), StrictWeakOrdering lt →
    ∀ l : List α, (sort lt l).Pairwise (fun a b => lt b a = false)

/-! ## Hash-based shuffle -/

/-- The 64-bit FNV prime of `HashTest::operator()`. -/
def HashTest.prime : Nat := 1099511628211

/-- The functor `HashTest`: its only member is the 64-bit `basis`. -/
structure HashTest where
  basis : Nat
deriving DecidableEq, Repr

/-- The constructor `HashTest::HashTest(SimplePcg32& rng)`:
`basis = rng(); basis <<= 32; basis |= rng();` on a `uint64_t`. -/
def HashTest.new {σ : Type} (G : SimplePcg32 σ) (rng : σ) : HashTest × σ :=
  let r1 := G.call rng
  let basis := r1.1
  let basis := (basis <<< 32) % 2 ^ 64
  let r2 := G.call r1.2
  let basis := basis ||| r2.1
  (⟨basis⟩, r2.2)

/-- The conversion of a `char` holding byte `c` to `uint64_t`, as in `hash ^= c`:
where plain `char` is signed a byte of 0x80 or above is a negative `char` and is
sign-extended. -/
def charToUInt64 (P : Platform) (c : Byte) : Nat :=
  if P.charIsSigned && decide (128 ≤ c.val) then 2 ^ 64 - 256 + c.val else c.val

/-- The call operator `HashTest::operator()(TestCaseInfo const& t)`. -/
def HashTest.hash (P : Platform) (h : HashTest) (t : TestCaseInfo) : Nat :=
  t.name.foldl (fun hash c => ((hash ^^^ charToUInt64 P c) * HashTest.prime) % 2 ^ 64) h.basis

/-- The comparison `operator<` of `std::pair<uint64_t, TestCaseHandle>`. -/
def pairLt (a b : Nat × TestCaseHandle) : Bool :=
  decide (a.1 < b.1) || (!decide (b.1 < a.1) && a.2.lt b.2)

/-- The key under which `pairLt` is a lexicographic comparison: the hash, then the
identity of the handle. -/
def pairKey (p : Nat × TestCaseHandle) : Lex (Nat × Identity) :=
  toLex (p.1, p.2.m_info.identity)

/-! ## Ordering engine -/

/-- The function `sortTests`. The second component of the result is the state of
the shared generator after the call. -/
def sortTests {σ : Type} (P : Platform) (G : SimplePcg32 σ) (config : IConfig)
    (unsortedTestCases : List TestCaseHandle) (rng : σ) :
    Except CatchError (List TestCaseHandle) × σ :=
  match config.runOrder with
  | .InDeclarationOrder => (.ok unsortedTestCases, rng)
  | .InLexicographicalOrder => (.ok (P.sort TestCaseHandle.lt unsortedTestCases), rng)
  | .InRandomOrder =>
    let seeded := G.seed config.rngSeed
    let hr := HashTest.new G seeded
    let indexed_tests :=
      unsortedTestCases.map (fun handle => (hr.1.hash P handle.getTestCaseInfo, handle))
    let indexed_tests := P.sort pairLt indexed_tests
    let randomized := indexed_tests.map (fun indexed => indexed.2)
    (.ok randomized, hr.2)
  | .unrecognised _ => (.error (.internalError "Unknown test order value!"), rng)

/-! ## Filter engine -/

/-- The function `isThrowSafe`. -/
def isThrowSafe (testCase : TestCaseHandle) (config : IConfig) : Bool :=
  !testCase.getTestCaseInfo.throws || config.allowThrows

/-- The function `matchTest`. -/
def matchTest (testCase : TestCaseHandle) (testSpec : TestSpec) (config : IConfig) : Bool :=
  testSpec.matchesInfo testCase.getTestCaseInfo && isThrowSafe testCase config

/-- The function `filterTests`: one pass over `testCases`, pushing the selected
handles at the back of `filtered`. -/
def filterTests (testCases : List TestCaseHandle) (testSpec : TestSpec) (config : IConfig) :
    List TestCaseHandle :=
  testCases.foldl
    (fun filtered testCase =>
      if (!testSpec.hasFilters && !testCase.getTestCaseInfo.isHidden) ||
          (testSpec.hasFilters && matchTest testCase testSpec config) then
        filtered ++ [testCase]
      else filtered)
    []

/-! ## Duplicate detection -/

/-- The call `seenFunctions.insert(function)` on a `std::set<TestCaseHandle>`, the
set being the list of its elements. The result is the pair returned by `insert`
(the element of the set equivalent to `function`, and whether `function` was
inserted) with the set after the call. -/
def setInsert (seenFunctions : List TestCaseHandle) (function : TestCaseHandle) :
    (TestCaseHandle × Bool) × List TestCaseHandle :=
  match seenFunctions.find? (fun g => !g.lt function && !function.lt g) with
  | some prev => ((prev, false), seenFunctions)
  | none => ((function, true), seenFunctions ++ [function])

/-- The loop of `enforceNoDuplicateTestCases` from a given `seenFunctions`. -/
def enforceLoop (seenFunctions : List TestCaseHandle) :
    List TestCaseHandle → Except CatchError Unit
  | [] => .ok ()
  | function :: rest =>
    let prev := setInsert seenFunctions function
    if prev.1.2 then enforceLoop prev.2 rest
    else .error (.enforce function.getTestCaseInfo.name
      prev.1.1.getTestCaseInfo.lineInfo function.getTestCaseInfo.lineInfo)

/-- The function `enforceNoDuplicateTestCases`. -/
def enforceNoDuplicateTestCases (functions : List TestCaseHandle) : Except CatchError Unit :=
  enforceLoop [] functions

/-! ## Registry -/

/-- The data members of `TestRegistry`. -/
structure TestRegistry where
  m_owned_test_infos : List TestCaseInfo
  m_viewed_test_infos : List TestCaseInfo
  m_invokers : List Nat
  m_handles : List TestCaseHandle
  m_currentSortOrder : RunTests.InWhatOrder
  m_sortedFunctions : List TestCaseHandle
deriving DecidableEq, Repr

/-- A registry before any registration; the initial value of `m_currentSortOrder`
is set in the class definition, outside this file, and is a parameter here. -/
def TestRegistry.initial (order : RunTests.InWhatOrder) : TestRegistry :=
  ⟨[], [], [], [], order, []⟩

/-- The member function `TestRegistry::registerTest`. -/
def TestRegistry.registerTest (r : TestRegistry) (testInfo : TestCaseInfo) (testInvoker : Nat) :
    TestRegistry :=
  { r with
    m_handles := r.m_handles ++ [⟨testInfo, testInvoker⟩]
    m_viewed_test_infos := r.m_viewed_test_infos ++ [testInfo]
    m_owned_test_infos := r.m_owned_test_infos ++ [testInfo]
    m_invokers := r.m_invokers ++ [testInvoker] }

/-- The member function `TestRegistry::getAllInfos`. -/
def TestRegistry.getAllInfos (r : TestRegistry) : List TestCaseInfo := r.m_viewed_test_infos

/-- The member function `TestRegistry::getAllTests`. -/
def TestRegistry.getAllTests (r : TestRegistry) : List TestCaseHandle := r.m_handles

/-- The member function `TestRegistry::getAllTestsSorted`. The result is what the
call returns (or the exception it throws), the registry after the call (the cache
members are `mutable`) and the state of the shared generator after the call. -/
def TestRegistry.getAllTestsSorted {σ : Type} (P : Platform) (G : SimplePcg32 σ)
    (r : TestRegistry) (config : IConfig) (rng : σ) :
    Except CatchError (List TestCaseHandle) × TestRegistry × σ :=
  match (if r.m_sortedFunctions.isEmpty then enforceNoDuplicateTestCases r.m_handles
         else .ok ()) with
  | .error e => (.error e, r, rng)
  | .ok () =>
    if r.m_currentSortOrder ≠ config.runOrder || r.m_sortedFunctions.isEmpty then
      match sortTests P G config r.m_handles rng with
      | (.error e, rng1) => (.error e, r, rng1)
      | (.ok sorted, rng1) =>
        let r1 := { r with m_sortedFunctions := sorted, m_currentSortOrder := config.runOrder }
        (.ok r1.m_sortedFunctions, r1, rng1)
    else (.ok r.m_sortedFunctions, r, rng)

/-! ## The specification's wording of the seed basis -/

/-- The seed basis as the specification words it: `first << 32 | second`, where
`first` and `second` are the first two 32-bit values drawn from the generator
freshly seeded with `S`. -/
def specBasis {σ : Type} (G : SimplePcg32 σ) (S : Nat) : Nat :=
  (((G.next (G.seed S)).1 % 2 ^ 32) <<< 32) |||
    ((G.next (G.next (G.seed S)).2).1 % 2 ^ 32)

/-! ## The specification's wording of the per-test hash -/

/-- The per-test hash as the specification words it: the left fold over the bytes
of the name, from the basis, of `h ↦ ((h XOR b) * 1099511628211) mod 2 ^ 64`, with
`b` the value of the byte, between 0 and 255. -/
def specHash (basis : Nat) (name : ByteString) : Nat :=
  name.foldl (fun h b => ((h ^^^ b.val) * 1099511628211) % 2 ^ 64) basis

/-! ## Sequences of calls on the registry -/

/-- One call on the registry: a registration or a query for the sorted view. -/
inductive RegistryCall where
  | registerTest (testInfo : TestCaseInfo) (testInvoker : Nat)
  | getAllTestsSorted (config : IConfig)

/-- The registry and the shared generator after one call; a query that throws
leaves the registry as `getAllTestsSorted` left it. -/
def RegistryCall.apply {σ : Type} (P : Platform) (G : SimplePcg32 σ) (w : TestRegistry × σ) :
    RegistryCall → TestRegistry × σ
  | .registerTest testInfo testInvoker => (w.1.registerTest testInfo testInvoker, w.2)
  | .getAllTestsSorted config => (w.1.getAllTestsSorted P G config w.2).2

/-- The registry and the shared generator after a sequence of calls. -/
def runCalls {σ : Type} (P : Platform) (G : SimplePcg32 σ) (w : TestRegistry × σ)
    (calls : List RegistryCall) : TestRegistry × σ :=
  calls.foldl (RegistryCall.apply P G) w

/-! ## Sequences with and without duplicates -/

/-- Two positions `i < j` of `H` hold handles whose descriptors have one identity
`(name, tags, sourceLocation)`. -/
def HasDuplicate (H : List TestCaseHandle) : Prop :=
  ∃ (i j : Nat) (a b : TestCaseHandle), i < j ∧ H[i]? = some a ∧ H[j]? = some b ∧
    a.m_info.identity = b.m_info.identity

/-- The handles of `H` have identities different from one another. -/
def DistinctIdentities (H : List TestCaseHandle) : Prop :=
  H.Pairwise (fun a b => a.m_info.identity ≠ b.m_info.identity)

/-! ## The std::sort of libstdc++

The function `std::sort` as GCC's library implements it (`bits/stl_algo.h` and
`bits/stl_heap.h`): an introsort loop, which partitions around the median of three
elements while a range has more than 16 elements and falls back on a heap sort
when its depth limit is used up, followed by an insertion sort of the whole
range. The range is a `List`, an iterator is a position in it, and the functions
return the list after their swaps and moves. On sequences of elements that are
equivalent under the comparison the order that results is the one the library
produces: that order is what decides whether sorting a sorted sequence again
changes it.
-/

/-- The call `std::iter_swap(i, j)` on positions of `l`. -/
def iterSwap {α : Type} (l : List α) (i j : Nat) : List α :=
  match l[i]?, l[j]? with
  | some a, some b => (l.set i b).set j a
  | _, _ => l

/-- The comparison `comp(i, j)` of the elements at two positions of `l`; it is
false when a position lies outside `l`, which ends the scans that the library
leaves unguarded. -/
def compAt {α : Type} (lt : α → α → Bool) (l : List α) (i j : Nat) : Bool :=
  match l[i]?, l[j]? with
  | some a, some b => lt a b
  | _, _ => false

/-- The helper `__move_median_to_first(result, a, b, c)`. -/
def moveMedianToFirst {α : Type} (lt : α → α → Bool) (l : List α) (result a b c : Nat) :
    List α :=
  if compAt lt l a b then
    if compAt lt l b c then iterSwap l result b
    else if compAt lt l a c then iterSwap l result c
    else iterSwap l result a
  else if compAt lt l a c then iterSwap l result a
  else if compAt lt l b c then iterSwap l result c
  else iterSwap l result b

/-- The scan `while (comp(first, pivot)) ++first;`. -/
def scanUp {α : Type} (lt : α → α → Bool) (l : List α) (pivot : Nat) : Nat → Nat → Nat
  | 0, first => first
  | fuel + 1, first =>
    if compAt lt l first pivot then scanUp lt l pivot fuel (first + 1) else first

/-- The scan `while (comp(pivot, last)) --last;`. -/
def scanDown {α : Type} (lt : α → α → Bool) (l : List α) (pivot : Nat) : Nat → Nat
  | 0 => 0
  | last + 1 => if compAt lt l pivot (last + 1) then scanDown lt l pivot last else last + 1

/-- The helper `__unguarded_partition(first, last, pivot)`: the array after the
swaps and the position returned. -/
def unguardedPartition {α : Type} (lt : α → α → Bool) (pivot : Nat) :
    Nat → List α → Nat → Nat → List α × Nat
  | 0, l, first, _ => (l, first)
  | fuel + 1, l, first, last =>
    let first := scanUp lt l pivot l.length first
    let last := scanDown lt l pivot (last - 1)
    if first < last then unguardedPartition lt pivot fuel (iterSwap l first last) (first + 1) last
    else (l, first)

/-- The helper `__unguarded_partition_pivot(first, last)`. -/
def unguardedPartitionPivot {α : Type} (lt : α → α → Bool) (l : List α) (first last : Nat) :
    List α × Nat :=
  let mid := first + (last - first) / 2
  let l := moveMedianToFirst lt l first (first + 1) mid (last - 1)
  unguardedPartition lt first l.length l (first + 1) last

/-- The helper `__push_heap(first, holeIndex, topIndex, value)`. The value on its
way is kept in the hole, so that each move of the library is a swap here; the
array that results is the same. -/
def pushHeap {α : Type} (lt : α → α → Bool) (first topIndex : Nat) :
    Nat → List α → Nat → List α
  | 0, l, _ => l
  | fuel + 1, l, holeIndex =>
    let parent := (holeIndex - 1) / 2
    if holeIndex > topIndex && compAt lt l (first + parent) (first + holeIndex) then
      pushHeap lt first topIndex fuel (iterSwap l (first + holeIndex) (first + parent)) parent
    else l

/-- The first loop of `__adjust_heap`: the hole goes down to a leaf, the greater
child moving up at each step. The result is the array and the hole. -/
def siftDown {α : Type} (lt : α → α → Bool) (first len : Nat) :
    Nat → List α → Nat → List α × Nat
  | 0, l, holeIndex => (l, holeIndex)
  | fuel + 1, l, holeIndex =>
    if holeIndex < (len - 1) / 2 then
      let secondChild := 2 * (holeIndex + 1)
      let secondChild :=
        if compAt lt l (first + secondChild) (first + (secondChild - 1)) then secondChild - 1
        else secondChild
      siftDown lt first len fuel (iterSwap l (first + holeIndex) (first + secondChild))
        secondChild
    else (l, holeIndex)

/-- The helper `__adjust_heap(first, holeIndex, len, value)`, the value being at
the hole. -/
def adjustHeap {α : Type} (lt : α → α → Bool) (l : List α) (first holeIndex len : Nat) :
    List α :=
  let topIndex := holeIndex
  let down := siftDown lt first len len l holeIndex
  let l := down.1
  let secondChild := down.2
  let step :=
    if len % 2 = 0 && secondChild = (len - 2) / 2 then
      (iterSwap l (first + secondChild) (first + (2 * (secondChild + 1) - 1)),
        2 * (secondChild + 1) - 1)
    else (l, secondChild)
  pushHeap lt first topIndex len step.1 step.2

/-- The loop of `__make_heap`, from `parent` down to 0. -/
def makeHeapFrom {α : Type} (lt : α → α → Bool) (first len : Nat) : Nat → List α → List α
  | 0, l => adjustHeap lt l first 0 len
  | parent + 1, l => makeHeapFrom lt first len parent (adjustHeap lt l first (parent + 1) len)

/-- The helper `__make_heap(first, last)`. -/
def makeHeap {α : Type} (lt : α → α → Bool) (l : List α) (first last : Nat) : List α :=
  if last - first < 2 then l else makeHeapFrom lt first (last - first) ((last - first - 2) / 2) l

/-- The helper `__sort_heap(first, last)`, `len` being `last - first`: the first
element is swapped with the last one and sifted into place, `len - 1` times. -/
def sortHeap {α : Type} (lt : α → α → Bool) (first : Nat) : Nat → List α → List α
  | 0, l => l
  | len + 1, l =>
    if len + 1 > 1 then
      sortHeap lt first len (adjustHeap lt (iterSwap l first (first + len)) first 0 len)
    else l

/-- The helper `__partial_sort(first, last, last)`, a heap sort of the range. -/
def partialSort {α : Type} (lt : α → α → Bool) (l : List α) (first last : Nat) : List α :=
  sortHeap lt first (last - first) (makeHeap lt l first last)

/-- The helper `__introsort_loop(first, last, depth_limit)`. -/
def introsortLoop {α : Type} (lt : α → α → Bool) : Nat → List α → Nat → Nat → List α
  | 0, l, first, last => if last - first > 16 then partialSort lt l first last else l
  | depth + 1, l, first, last =>
    if last - first > 16 then
      let cut := unguardedPartitionPivot lt l first last
      introsortLoop lt depth (introsortLoop lt depth cut.1 cut.2 last) first cut.2
    else l

/-- The helper `__unguarded_linear_insert`: `val` is put among the elements that
stand before it, given from the nearest one on; the result is in the same order. -/
def unguardedLinearInsert {α : Type} (lt : α → α → Bool) (val : α) : List α → List α
  | [] => [val]
  | next :: before =>
    if lt val next then next :: unguardedLinearInsert lt val before else val :: next :: before

/-- One step of the loop of `__insertion_sort`, on the elements that stand before
`val`, given from the nearest one on. -/
def insertionStep {α : Type} (lt : α → α → Bool) (val : α) (before : List α) : List α :=
  match before.getLast? with
  | some first => if lt val first then before ++ [val] else unguardedLinearInsert lt val before
  | none => [val]

/-- The helper `__insertion_sort` on the elements `l`, those in `before` being in
place already. -/
def insertionSortLoop {α : Type} (lt : α → α → Bool) (before : List α) (l : List α) : List α :=
  l.foldl (fun before val => insertionStep lt val before) before

/-- The helper `__unguarded_insertion_sort` on the elements `l`, those in `before`
being in place already. -/
def unguardedInsertionSortLoop {α : Type} (lt : α → α → Bool) (before : List α) (l : List α) :
    List α :=
  l.foldl (fun before val => unguardedLinearInsert lt val before) before

/-- The helper `__final_insertion_sort(first, last)`. -/
def finalInsertionSort {α : Type} (lt : α → α → Bool) (l : List α) : List α :=
  if l.length > 16 then
    (unguardedInsertionSortLoop lt (insertionSortLoop lt [] (l.take 16)) (l.drop 16)).reverse
  else (insertionSortLoop lt [] l).reverse

/-- The halvings of `lg`, at most `fuel` of them. -/
def lgLoop : Nat → Nat → Nat
  | 0, _ => 0
  | fuel + 1, n => if n < 2 then 0 else lgLoop fuel (n / 2) + 1

/-- The helper `std::__lg(n)`: the position of the highest bit of `n`. -/
def lg (n : Nat) : Nat := lgLoop n n

/-- The function `std::sort(first, last)` of libstdc++, on the whole of `l`. -/
def libstdcxxSort {α : Type} (lt : α → α → Bool) (l : List α) : List α :=
  if l.isEmpty then l
  else finalInsertionSort lt (introsortLoop lt (2 * lg l.length) l 0 l.length)

/-! ## Concrete platforms, generator and test cases -/

/-- A conforming `std::sort` that keeps equivalent elements in their input order
(insertion sort), with the given signedness of plain `char`. -/
def insertionPlatform (charIsSigned : Bool) : Platform where
  charIsSigned := charIsSigned
  sort := fun lt l => l.insertionSort (fun a b => lt b a = false)
  sort_perm := fun _ _ l => List.perm_insertionSort _ l
  sort_sorted := fun lt h l => by
    haveI : IsTotal _ (fun a b => lt b a = false) := ⟨fun a b => by
      cases hba : lt b a
      · exact Or.inl rfl
      · right
        cases hab : lt a b
        · rfl
        · have h1 := h.trans a b a hab hba
          rw [h.irrefl a] at h1
          exact absurd h1 (by decide)⟩
    haveI : IsTrans _ (fun a b => lt b a = false) :=
      ⟨fun a b c hab hbc => h.incomp_trans a b c hab hbc⟩
    exact List.sorted_insertionSort _ l

/-- A generator to evaluate the definitions with: a linear congruential
generator whose state is its last value. -/
def lcg : SimplePcg32 Nat where
  seed := fun s => s
  next := fun s => (s * 1664525 + 1013904223, s * 1664525 + 1013904223)

/-- A visible, non-throwing test case with the given name, file and line. -/
def mkTest (name file : ByteString) (line invoker : Nat) : TestCaseHandle :=
  ⟨⟨name, [], ⟨file, line⟩, false, false⟩, invoker⟩

/-- Test case "A", declared at line 20 of file "t". -/
def testA : TestCaseHandle := mkTest [65] [116] 20 2

/-- Test case "B", declared at line 10 of file "t". -/
def testB : TestCaseHandle := mkTest [66] [116] 10 1

/-- Test case "C", declared at line 30 of file "t". -/
def testC : TestCaseHandle := mkTest [67] [116] 30 3

/-- A second handle with the identity of `testB` and another invoker. -/
def testB2 : TestCaseHandle := mkTest [66] [116] 10 4

/-- The handle that pairs test case "B" of line 10 of file "t" with invoker `i`:
all these handles have one identity. -/
def testBWith (i : Nat) : TestCaseHandle := mkTest [66] [116] 10 i

/-- A configuration with the given run order, seed 7 and throwing tests refused. -/
def mkConfig (order : RunTests.InWhatOrder) : IConfig := ⟨order, 7, false⟩

/-- The registry after registering "B", asking for the sorted view in declaration
order, and registering "B" at the same location again. -/
def registryWithLateDuplicate : TestRegistry :=
  (runCalls (insertionPlatform true) lcg (TestRegistry.initial .InDeclarationOrder, 0)
    [.registerTest testB.m_info 1, .getAllTestsSorted (mkConfig .InDeclarationOrder),
     .registerTest testB2.m_info 4]).1

/-- The registry after registering "B", asking for the sorted view in declaration
order, and registering "A". -/
def registryWithLateTest : TestRegistry :=
  (runCalls (insertionPlatform true) lcg (TestRegistry.initial .InDeclarationOrder, 0)
    [.registerTest testB.m_info 1, .getAllTestsSorted (mkConfig .InDeclarationOrder),
     .registerTest testA.m_info 2]).1

/-- The registry after registering "B" twice at the same location, before any query. -/
def registryWithDuplicate : TestRegistry :=
  (runCalls (insertionPlatform true) lcg (TestRegistry.initial .InDeclarationOrder, 0)
    [.registerTest testB.m_info 1, .registerTest testB2.m_info 4]).1

/-- The registry after registering "B", "A" and "C", before any query. -/
def registryBAC : TestRegistry :=
  (runCalls (insertionPlatform true) lcg (TestRegistry.initial .InDeclarationOrder, 0)
    [.registerTest testB.m_info 1, .registerTest testA.m_info 2,
     .registerTest testC.m_info 3]).1

/-- The registrations among a sequence of calls, in order: the descriptor and the
invoker of each `registerTest`. -/
def registrations : List RegistryCall → List (TestCaseInfo × Nat)
  | [] => []
  | .registerTest testInfo testInvoker :: rest => (testInfo, testInvoker) :: registrations rest
  | .getAllTestsSorted _ :: rest => registrations rest

/-! ## Class name extraction -/

/-- The constant `std::string::npos`, the greatest value of `std::size_t`. -/
def npos : Nat := 2 ^ 64 - 1

/-- Whether the characters of `s` from position `pos` on are those of `pat`. -/
def compareAt (s pat : ByteString) (pos : Nat) : Bool :=
  (s.drop pos).take pat.length == pat

/-- The search loop of `std::string::rfind`: the positions from `pos` down to 0 are
tried in turn, the first one at which `pat` stands is returned, `npos` if none. -/
def rfindFrom (s pat : ByteString) : Nat → Nat
  | 0 => if compareAt s pat 0 then 0 else npos
  | pos + 1 => if compareAt s pat (pos + 1) then pos + 1 else rfindFrom s pat pos

/-- The member function `std::string::rfind(str, pos)`: the last position not after
`pos` at which `pat` stands in `s`, `npos` if there is none. -/
def rfind (s pat : ByteString) (pos : Nat) : Nat :=
  if pat.length ≤ s.length then rfindFrom s pat (min (s.length - pat.length) pos) else npos

/-- The member function `std::string::substr(pos, count)`: `none` stands for the
exception `std::out_of_range`, thrown when `pos` is beyond the length. -/
def substr (s : ByteString) (pos count : Nat) : Option ByteString :=
  if pos > s.length then none else some ((s.drop pos).take count)

/-- Modelled from the spec: the helper `startsWith( std::string const&, char )` is
defined outside this file; a string starts with a character when it is not empty
and that character is its first. -/
def startsWith (s : ByteString) (c : Byte) : Bool :=
  match s with
  | [] => false
  | a :: _ => a == c

/-- The function `extractClassName`; `'&'` is byte 38 and `':'` is byte 58. The
subtractions are those of `std::size_t`, modulo `2 ^ 64`. -/
def extractClassName (classOrQualifiedMethodName : ByteString) : Option ByteString :=
  let className := classOrQualifiedMethodName
  if startsWith className 38 then
    let lastColons := rfind className [58, 58] npos
    let penultimateColons := rfind className [58, 58] ((lastColons + 2 ^ 64 - 1) % 2 ^ 64)
    let penultimateColons := if penultimateColons = npos then 1 else penultimateColons
    substr className penultimateColons ((lastColons + 2 ^ 64 - penultimateColons) % 2 ^ 64)
  else some className

/-! ## The std::sort of libstdc++ returns a rearrangement of its input -/

theorem cons_set_perm {α : Type} (x b : α) :
    ∀ (xs : List α) (j : Nat), xs[j]? = some b → (b :: xs.set j x).Perm (x :: xs) := by
  intro xs
  induction xs with
  | nil => intro j h; simp at h
  | cons y ys ih =>
    intro j h
    cases j with
    | zero =>
      simp only [List.getElem?_cons_zero, Option.some.injEq] at h
      subst h
      exact List.Perm.swap _ _ _
    | succ j =>
      rw [List.getElem?_cons_succ] at h
      rw [List.set_cons_succ]
      exact ((List.Perm.swap y b _).trans ((ih j h).cons y)).trans (List.Perm.swap x y ys)

theorem iterSwap_perm {α : Type} (l : List α) (i j : Nat) : (iterSwap l i j).Perm l := by
  unfold iterSwap
  split
  · rename_i a b ha hb
    clear * - ha hb
    induction l generalizing i j with
    | nil => simp at ha
    | cons x xs ih =>
      cases i with
      | zero =>
        simp only [List.getElem?_cons_zero, Option.some.injEq] at ha
        subst ha
        cases j with
        | zero =>
          simp only [List.getElem?_cons_zero, Option.some.injEq] at hb
          subst hb
          simp
        | succ j =>
          rw [List.getElem?_cons_succ] at hb
          simp only [List.set_cons_zero, List.set_cons_succ]
          exact cons_set_perm _ b xs j hb
      | succ i =>
        rw [List.getElem?_cons_succ] at ha
        cases j with
        | zero =>
          simp only [List.getElem?_cons_zero, Option.some.injEq] at hb
          subst hb
          simp only [List.set_cons_zero, List.set_cons_succ]
          exact cons_set_perm _ a xs i ha
        | succ j =>
          rw [List.getElem?_cons_succ] at hb
          simp only [List.set_cons_succ]
          exact (ih i j ha hb).cons x
  · exact List.Perm.refl _

theorem moveMedianToFirst_perm {α : Type} (lt : α → α → Bool) (l : List α)
    (result a b c : Nat) : (moveMedianToFirst lt l result a b c).Perm l := by
  unfold moveMedianToFirst
  repeat' split
  all_goals exact iterSwap_perm _ _ _

theorem unguardedPartition_perm {α : Type} (lt : α → α → Bool) (pivot : Nat) (fuel : Nat) :
    ∀ (l : List α) (first last : Nat),
      (unguardedPartition lt pivot fuel l first last).1.Perm l := by
  induction fuel with
  | zero => intro l first last; exact List.Perm.refl _
  | succ fuel ih =>
    intro l first last
    unfold unguardedPartition
    simp only
    split
    · exact (ih _ _ _).trans (iterSwap_perm _ _ _)
    · exact List.Perm.refl _

theorem unguardedPartitionPivot_perm {α : Type} (lt : α → α → Bool) (l : List α)
    (first last : Nat) : (unguardedPartitionPivot lt l first last).1.Perm l := by
  unfold unguardedPartitionPivot
  exact (unguardedPartition_perm lt _ _ _ _ _).trans (moveMedianToFirst_perm lt l _ _ _ _)

theorem pushHeap_perm {α : Type} (lt : α → α → Bool) (first topIndex : Nat) (fuel : Nat) :
    ∀ (l : List α) (holeIndex : Nat), (pushHeap lt first topIndex fuel l holeIndex).Perm l := by
  induction fuel with
  | zero => intro l holeIndex; exact List.Perm.refl _
  | succ fuel ih =>
    intro l holeIndex
    unfold pushHeap
    simp only
    split
    · exact (ih _ _).trans (iterSwap_perm _ _ _)
    · exact List.Perm.refl _

theorem siftDown_perm {α : Type} (lt : α → α → Bool) (first len : Nat) (fuel : Nat) :
    ∀ (l : List α) (holeIndex : Nat), (siftDown lt first len fuel l holeIndex).1.Perm l := by
  induction fuel with
  | zero => intro l holeIndex; exact List.Perm.refl _
  | succ fuel ih =>
    intro l holeIndex
    unfold siftDown
    simp only
    split
    · exact (ih _ _).trans (iterSwap_perm _ _ _)
    · exact List.Perm.refl _

theorem adjustHeap_perm {α : Type} (lt : α → α → Bool) (l : List α)
    (first holeIndex len : Nat) : (adjustHeap lt l first holeIndex len).Perm l := by
  unfold adjustHeap
  simp only
  refine (pushHeap_perm lt _ _ _ _ _).trans ?_
  split
  · exact (iterSwap_perm _ _ _).trans (siftDown_perm lt _ _ _ _ _)
  · exact siftDown_perm lt _ _ _ _ _

theorem makeHeapFrom_perm {α : Type} (lt : α → α → Bool) (first len : Nat) (parent : Nat) :
    ∀ l : List α, (makeHeapFrom lt first len parent l).Perm l := by
  induction parent with
  | zero => intro l; exact adjustHeap_perm lt l _ _ _
  | succ parent ih =>
    intro l
    unfold makeHeapFrom
    exact (ih _).trans (adjustHeap_perm lt l _ _ _)

theorem makeHeap_perm {α : Type} (lt : α → α → Bool) (l : List α) (first last : Nat) :
    (makeHeap lt l first last).Perm l := by
  unfold makeHeap
  split
  · exact List.Perm.refl _
  · exact makeHeapFrom_perm lt _ _ _ _

theorem sortHeap_perm {α : Type} (lt : α → α → Bool) (first : Nat) (len : Nat) :
    ∀ l : List α, (sortHeap lt first len l).Perm l := by
  induction len with
  | zero => intro l; exact List.Perm.refl _
  | succ len ih =>
    intro l
    unfold sortHeap
    split
    · exact (ih _).trans ((adjustHeap_perm lt _ _ _ _).trans (iterSwap_perm _ _ _))
    · exact List.Perm.refl _

theorem partialSort_perm {α : Type} (lt : α → α → Bool) (l : List α) (first last : Nat) :
    (partialSort lt l first last).Perm l := by
  unfold partialSort
  exact (sortHeap_perm lt _ _ _).trans (makeHeap_perm lt l _ _)

theorem introsortLoop_perm {α : Type} (lt : α → α → Bool) (depth : Nat) :
    ∀ (l : List α) (first last : Nat), (introsortLoop lt depth l first last).Perm l := by
  induction depth with
  | zero =>
    intro l first last
    unfold introsortLoop
    split
    · exact partialSort_perm lt l _ _
    · exact List.Perm.refl _
  | succ depth ih =>
    intro l first last
    unfold introsortLoop
    simp only
    split
    · exact (ih _ _ _).trans ((ih _ _ _).trans (unguardedPartitionPivot_perm lt l _ _))
    · exact List.Perm.refl _

theorem unguardedLinearInsert_perm {α : Type} (lt : α → α → Bool) (val : α) :
    ∀ before : List α, (unguardedLinearInsert lt val before).Perm (val :: before) := by
  intro before
  induction before with
  | nil => exact List.Perm.refl _
  | cons next before ih =>
    unfold unguardedLinearInsert
    split
    · exact (ih.cons next).trans (List.Perm.swap _ _ _)
    · exact List.Perm.refl _

theorem insertionStep_perm {α : Type} (lt : α → α → Bool) (val : α) (before : List α) :
    (insertionStep lt val before).Perm (val :: before) := by
  unfold insertionStep
  split
  · split
    · exact List.perm_append_singleton val before
    · exact unguardedLinearInsert_perm lt val before
  · rename_i h
    rw [List.getLast?_eq_none_iff] at h
    subst h
    exact List.Perm.refl _

theorem foldl_insert_perm {α : Type} (step : α → List α → List α)
    (hstep : ∀ val before, (step val before).Perm (val :: before)) (l : List α) :
    ∀ before : List α, (l.foldl (fun before val => step val before) before).Perm (before ++ l) := by
  induction l with
  | nil => intro before; simp
  | cons val l ih =>
    intro before
    rw [List.foldl_cons]
    refine (ih _).trans ?_
    refine ((hstep val before).append_right l).trans ?_
    simpa using (@List.perm_middle _ val before l).symm

theorem finalInsertionSort_perm {α : Type} (lt : α → α → Bool) (l : List α) :
    (finalInsertionSort lt l).Perm l := by
  unfold finalInsertionSort unguardedInsertionSortLoop insertionSortLoop
  split
  · refine (List.reverse_perm _).trans ?_
    refine (foldl_insert_perm _ (unguardedLinearInsert_perm lt) _ _).trans ?_
    refine ((foldl_insert_perm _ (insertionStep_perm lt) _ _).append_right _).trans ?_
    simp
  · refine (List.reverse_perm _).trans ?_
    refine (foldl_insert_perm _ (insertionStep_perm lt) _ _).trans ?_
    simp

theorem libstdcxxSort_perm {α : Type} (lt : α → α → Bool) (l : List α) :
    (libstdcxxSort lt l).Perm l := by
  unfold libstdcxxSort
  split
  · exact List.Perm.refl _
  · exact (finalInsertionSort_perm lt _).trans (introsortLoop_perm lt _ _ _ _)

/-! ## The std::sort of libstdc++ returns a sorted sequence -/

theorem unguardedLinearInsert_sorted {α : Type} (lt : α → α → Bool)
    (h : StrictWeakOrdering lt) (val : α) :
    ∀ before : List α, before.Pairwise (fun a b => lt a b = false) →
      (unguardedLinearInsert lt val before).Pairwise (fun a b => lt a b = false) := by
  intro before
  induction before with
  | nil => intro _; simp [unguardedLinearInsert]
  | cons next before ih =>
    intro hs
    rw [List.pairwise_cons] at hs
    unfold unguardedLinearInsert
    split
    · rename_i hlt
      rw [List.pairwise_cons]
      refine ⟨?_, ih hs.2⟩
      intro x hx
      rcases (List.mem_cons.1 ((unguardedLinearInsert_perm lt val before).subset hx)) with hx | hx
      · subst hx
        cases hnv : lt next x with
        | false => rfl
        | true =>
          have := h.trans _ _ _ hlt hnv
          rw [h.irrefl] at this
          exact absurd this (by decide)
      · exact hs.1 x hx
    · rename_i hlt
      have hlt : lt val next = false := by simpa using hlt
      rw [List.pairwise_cons]
      refine ⟨?_, List.pairwise_cons.2 hs⟩
      intro x hx
      rcases List.mem_cons.1 hx with hx | hx
      · subst hx
        exact hlt
      · exact h.incomp_trans x next val (hs.1 x hx) hlt

theorem insertionStep_sorted {α : Type} (lt : α → α → Bool) (h : StrictWeakOrdering lt)
    (val : α) (before : List α) (hs : before.Pairwise (fun a b => lt a b = false)) :
    (insertionStep lt val before).Pairwise (fun a b => lt a b = false) := by
  unfold insertionStep
  split
  · rename_i first hfirst
    split
    · rename_i hlt
      obtain ⟨init, rfl⟩ : ∃ init, before = init ++ [first] := by
        have hne : before ≠ [] := by
          intro hb
          rw [hb] at hfirst
          simp at hfirst
        refine ⟨before.dropLast, ?_⟩
        have h1 := List.dropLast_append_getLast hne
        have h2 : before.getLast hne = first := by
          rw [List.getLast?_eq_getLast _ hne] at hfirst
          exact Option.some.inj hfirst
        rw [h2] at h1
        exact h1.symm
      rw [List.pairwise_append] at hs ⊢
      refine ⟨List.pairwise_append.2 hs, List.pairwise_singleton _ _, ?_⟩
      intro e he x hx
      rw [List.mem_singleton] at hx
      subst hx
      cases hex : lt e x with
      | false => rfl
      | true =>
        have hef := h.trans _ _ _ hex hlt
        rcases List.mem_append.1 he with he | he
        · have := hs.2.2 e he first (List.mem_singleton_self _)
          rw [this] at hef
          exact absurd hef (by decide)
        · rw [List.mem_singleton] at he
          subst he
          rw [h.irrefl] at hef
          exact absurd hef (by decide)
    · exact unguardedLinearInsert_sorted lt h val before hs
  · simp

theorem foldl_insert_sorted {α : Type} (R : α → α → Prop) (step : α → List α → List α)
    (hstep : ∀ val before, before.Pairwise R → (step val before).Pairwise R) (l : List α) :
    ∀ before : List α, before.Pairwise R →
      (l.foldl (fun before val => step val before) before).Pairwise R := by
  induction l with
  | nil => intro before hb; exact hb
  | cons val l ih =>
    intro before hb
    rw [List.foldl_cons]
    exact ih _ (hstep val before hb)

theorem finalInsertionSort_sorted {α : Type} (lt : α → α → Bool) (h : StrictWeakOrdering lt)
    (l : List α) : (finalInsertionSort lt l).Pairwise (fun a b => lt b a = false) := by
  unfold finalInsertionSort unguardedInsertionSortLoop insertionSortLoop
  split
  · rw [List.pairwise_reverse]
    exact foldl_insert_sorted _ _ (unguardedLinearInsert_sorted lt h) _ _
      (foldl_insert_sorted _ _ (insertionStep_sorted lt h) _ _ List.Pairwise.nil)
  · rw [List.pairwise_reverse]
    exact foldl_insert_sorted _ _ (insertionStep_sorted lt h) _ _ List.Pairwise.nil

theorem libstdcxxSort_sorted {α : Type} (lt : α → α → Bool) (h : StrictWeakOrdering lt)
    (l : List α) : (libstdcxxSort lt l).Pairwise (fun a b => lt b a = false) := by
  unfold libstdcxxSort
  split
  · rename_i he
    rw [List.isEmpty_iff] at he
    subst he
    exact List.Pairwise.nil
  · exact finalInsertionSort_sorted lt h _

/-- The C++ implementation of GCC: the `std::sort` of libstdc++, with the given
signedness of plain `char`. -/
def libstdcxxPlatform (charIsSigned : Bool) : Platform where
  charIsSigned := charIsSigned
  sort := fun lt l => libstdcxxSort lt l
  sort_perm := fun lt _ l => libstdcxxSort_perm lt l
  sort_sorted := fun lt h l => libstdcxxSort_sorted lt h l

/-! ## The std::sort of libstdc++ on a sorted sequence of at most 16 elements -/

theorem introsortLoop_short {α : Type} (lt : α → α → Bool) (depth : Nat) (l : List α)
    (h : l.length ≤ 16) : introsortLoop lt depth l 0 l.length = l := by
  cases depth with
  | zero =>
    unfold introsortLoop
    rw [if_neg (by omega)]
  | succ depth =>
    unfold introsortLoop
    simp only
    rw [if_neg (by omega)]

theorem insertionStep_of_ge {α : Type} (lt : α → α → Bool) (val : α) (before : List α)
    (h : ∀ e ∈ before, lt val e = false) : insertionStep lt val before = val :: before := by
  unfold insertionStep
  split
  · rename_i first hfirst
    have hmem : first ∈ before := List.mem_of_mem_getLast? (Option.mem_def.2 hfirst)
    rw [if_neg (by rw [h first hmem]; decide)]
    cases before with
    | nil => rfl
    | cons next rest =>
      unfold unguardedLinearInsert
      rw [if_neg (by rw [h next (List.mem_cons_self _ _)]; decide)]
  · rename_i hnone
    rw [List.getLast?_eq_none_iff] at hnone
    subst hnone
    rfl

theorem insertionSortLoop_sorted_input {α : Type} (lt : α → α → Bool) (l : List α) :
    ∀ before : List α, (before.reverse ++ l).Pairwise (fun a b => lt b a = false) →
      insertionSortLoop lt before l = l.reverse ++ before := by
  induction l with
  | nil => intro before _; simp [insertionSortLoop]
  | cons val l ih =>
    intro before hs
    have hstep : insertionStep lt val before = val :: before := by
      apply insertionStep_of_ge
      intro e he
      rw [List.pairwise_append] at hs
      exact hs.2.2 e (List.mem_reverse.2 he) val (List.mem_cons_self _ _)
    unfold insertionSortLoop
    rw [List.foldl_cons, hstep]
    have := ih (val :: before) (by simpa using hs)
    unfold insertionSortLoop at this
    rw [this]
    simp

/-- On a sorted sequence of at most 16 elements the `std::sort` of libstdc++ is
an insertion sort that moves nothing. -/
theorem libstdcxxSort_sorted_short {α : Type} (lt : α → α → Bool) (l : List α)
    (hlen : l.length ≤ 16) (hs : l.Pairwise (fun a b => lt b a = false)) :
    libstdcxxSort lt l = l := by
  unfold libstdcxxSort
  split
  · rfl
  · rw [introsortLoop_short lt _ l hlen]
    unfold finalInsertionSort
    rw [if_neg (by omega), insertionSortLoop_sorted_input lt l [] (by simpa using hs)]
    simp

/-! ## The ordering of handles -/

theorem strictWeakOrdering_of_key {α κ : Type} [LinearOrder κ] (key : α → κ)
    (lt : α → α → Bool) (h : ∀ a b, lt a b = decide (key a < key b)) :
    StrictWeakOrdering lt where
  irrefl := fun a => by simp [h]
  trans := fun a b c hab hbc => by
    simp only [h, decide_eq_true_eq] at *
    exact lt_trans hab hbc
  incomp_trans := fun a b c hba hcb => by
    simp only [h, decide_eq_false_iff_not, not_lt] at *
    exact le_trans hba hcb

theorem TestCaseHandle.lt_iff (a b : TestCaseHandle) :
    a.lt b = true ↔ a.m_info.identity < b.m_info.identity := by
  simp [TestCaseHandle.lt, TestCaseInfo.lt, TestCaseHandle.getTestCaseInfo]

theorem TestCaseHandle.lt_eq_false_iff (a b : TestCaseHandle) :
    a.lt b = false ↔ b.m_info.identity ≤ a.m_info.identity := by
  simp [TestCaseHandle.lt, TestCaseInfo.lt, TestCaseHandle.getTestCaseInfo]

theorem TestCaseHandle.strictWeakOrdering : StrictWeakOrdering TestCaseHandle.lt :=
  strictWeakOrdering_of_key (fun h : TestCaseHandle => h.m_info.identity) TestCaseHandle.lt
    (fun _ _ => rfl)

theorem pairLt_eq (a b : Nat × TestCaseHandle) :
    pairLt a b = decide (pairKey a < pairKey b) := by
  rw [Bool.eq_iff_iff]
  simp only [pairLt, pairKey, Prod.Lex.lt_iff, Bool.or_eq_true, Bool.and_eq_true,
    Bool.not_eq_true', decide_eq_true_eq, decide_eq_false_iff_not, TestCaseHandle.lt_iff, not_lt]
  constructor
  · rintro (h | ⟨h1, h2⟩)
    · exact Or.inl h
    · rcases lt_or_eq_of_le h1 with h3 | h3
      · exact Or.inl h3
      · exact Or.inr ⟨h3, h2⟩
  · rintro (h | ⟨h1, h2⟩)
    · exact Or.inl h
    · exact Or.inr ⟨le_of_eq h1, h2⟩

theorem pairLt_strictWeakOrdering : StrictWeakOrdering pairLt :=
  strictWeakOrdering_of_key pairKey _ pairLt_eq

/-! ## Ordering engine: helper lemmas -/

theorem identity_eq_of_incomparable (a b : TestCaseHandle)
    (h1 : b.lt a = false) (h2 : a.lt b = false) : a.m_info.identity = b.m_info.identity :=
  le_antisymm ((TestCaseHandle.lt_eq_false_iff b a).1 h1) ((TestCaseHandle.lt_eq_false_iff a b).1 h2)

/-- A sorted rearrangement of `l` is what every conforming `std::sort` returns on
`l`, provided handles of `l` with the same identity are the same handle. -/
theorem sort_lt_eq_of_sorted (P : Platform) (l s : List TestCaseHandle) (hperm : s.Perm l)
    (hs : s.Pairwise (fun a b => b.lt a = false))
    (hinj : ∀ a ∈ l, ∀ b ∈ l, a.m_info.identity = b.m_info.identity → a = b) :
    P.sort TestCaseHandle.lt l = s := by
  have hp := P.sort_perm TestCaseHandle.lt TestCaseHandle.strictWeakOrdering l
  have hsorted := P.sort_sorted TestCaseHandle.lt TestCaseHandle.strictWeakOrdering l
  refine List.Perm.eq_of_sorted ?_ hsorted hs (hp.trans hperm.symm)
  intro a b ha hb hab hba
  exact hinj a (hp.subset ha) b (hperm.subset hb) (identity_eq_of_incomparable a b hab hba)

theorem HashTest.new_basis {σ : Type} (G : SimplePcg32 σ) (S : Nat) :
    (HashTest.new G (G.seed S)).1.basis = specBasis G S := by
  have h : (G.next (G.seed S)).1 % 2 ^ 32 < 2 ^ 32 := Nat.mod_lt _ (by decide)
  have h2 : ((G.next (G.seed S)).1 % 2 ^ 32) <<< 32 < 2 ^ 64 := by
    rw [Nat.shiftLeft_eq]
    calc (G.next (G.seed S)).1 % 2 ^ 32 * 2 ^ 32 < 2 ^ 32 * 2 ^ 32 :=
          Nat.mul_lt_mul_of_pos_right h (by decide)
      _ = 2 ^ 64 := by norm_num
  simp only [HashTest.new, SimplePcg32.call, specBasis]
  rw [Nat.mod_eq_of_lt h2]

/-! ## Ordering engine: the claims -/

/-- C2. With run order `InDeclarationOrder`, whatever the seed, `sortTests` returns
exactly its input (the empty sequence and sequences with duplicates included) and
leaves the shared generator as it was, so that calling it again on its result, any
number of times, still gives the input; `[B, A, C]` gives `[B, A, C]`. -/
theorem sortTests_declarationOrder {σ : Type} (P : Platform) (G : SimplePcg32 σ)
    (seed : Nat) (allowThrows : Bool) (H : List TestCaseHandle) (rng : σ) :
    sortTests P G ⟨.InDeclarationOrder, seed, allowThrows⟩ H rng = (.ok H, rng) ∧
    (∀ n : Nat, (fun l => match (sortTests P G ⟨.InDeclarationOrder, seed, allowThrows⟩ l rng).1 with
        | .ok l1 => l1
        | .error _ => [])^[n] H = H) ∧
    sortTests P G ⟨.InDeclarationOrder, seed, allowThrows⟩ [testB, testA, testC] rng =
      (.ok [testB, testA, testC], rng) := by
  refine ⟨rfl, ?_, rfl⟩
  intro n
  induction n with
  | zero => rfl
  | succ n ih => rw [Function.iterate_succ_apply']; rw [ih]; rfl

/-- C1, as amended. With run order `InLexicographicalOrder`, for every sequence of
handles `H`, `sortTests` returns a rearrangement of `H` in which no element is
greater than any later one; `[B, A, C]` gives `[A, B, C]`. Sorting that result
again returns it unchanged when handles of `H` with the same identity are the
same handle, whatever the `std::sort`, and, with the `std::sort` of libstdc++,
also when `H` has at most 16 handles. -/
theorem sortTests_lexicographicalOrder {σ : Type} (P : Platform) (G : SimplePcg32 σ)
    (seed : Nat) (allowThrows charIsSigned : Bool) (H : List TestCaseHandle) (rng : σ) :
    (∃ sorted : List TestCaseHandle,
      sortTests P G ⟨.InLexicographicalOrder, seed, allowThrows⟩ H rng = (.ok sorted, rng) ∧
      sorted.Perm H ∧
      sorted.Pairwise (fun a b => b.lt a = false) ∧
      ((∀ a ∈ H, ∀ b ∈ H, a.m_info.identity = b.m_info.identity → a = b) →
        sortTests P G ⟨.InLexicographicalOrder, seed, allowThrows⟩ sorted rng
          = (.ok sorted, rng)) ∧
      sortTests P G ⟨.InLexicographicalOrder, seed, allowThrows⟩ [testB, testA, testC] rng =
        (.ok [testA, testB, testC], rng)) ∧
    (H.length ≤ 16 → ∃ sorted : List TestCaseHandle,
      sortTests (libstdcxxPlatform charIsSigned) G ⟨.InLexicographicalOrder, seed, allowThrows⟩
        H rng = (.ok sorted, rng) ∧
      sortTests (libstdcxxPlatform charIsSigned) G ⟨.InLexicographicalOrder, seed, allowThrows⟩
        sorted rng = (.ok sorted, rng)) := by
  have hp := P.sort_perm TestCaseHandle.lt TestCaseHandle.strictWeakOrdering H
  have hs := P.sort_sorted TestCaseHandle.lt TestCaseHandle.strictWeakOrdering H
  refine ⟨⟨P.sort TestCaseHandle.lt H, rfl, hp, hs, ?_, ?_⟩, ?_⟩
  · intro hinj
    have h := sort_lt_eq_of_sorted P (P.sort TestCaseHandle.lt H) (P.sort TestCaseHandle.lt H)
      (List.Perm.refl _) hs
      (fun a ha b hb hab => hinj a (hp.subset ha) b (hp.subset hb) hab)
    simp only [sortTests, h]
  · have h := sort_lt_eq_of_sorted P [testB, testA, testC] [testA, testB, testC]
      (by decide) (by decide) (by decide)
    simp only [sortTests, h]
  · intro hlen
    refine ⟨libstdcxxSort TestCaseHandle.lt H, rfl, ?_⟩
    have h1 : (libstdcxxSort TestCaseHandle.lt H).length ≤ 16 := by
      rw [(libstdcxxSort_perm TestCaseHandle.lt H).length_eq]
      exact hlen
    have h2 := libstdcxxSort_sorted_short TestCaseHandle.lt _ h1
      (libstdcxxSort_sorted TestCaseHandle.lt TestCaseHandle.strictWeakOrdering H)
    simp only [sortTests, libstdcxxPlatform, h2]

/-- C1, a sequence on which the claim fails, with the `std::sort` of libstdc++: 17
handles of one identity, held by the invokers 0 to 16. Sorting them gives the
order `8, 16, 15, ..., 9, 0, 7, 6, ..., 1` of the invokers (the first and the
middle element are swapped, then the partition swaps the others end to end), and
sorting that result again gives another order, `9, 1, 2, ..., 7, 0, 8, 10, ..., 16`.
Two such handles alone, `[B, B2]`, stay in place. -/
theorem sortTests_lexicographicalOrder_resort_differs :
    sortTests (libstdcxxPlatform true) lcg (mkConfig .InLexicographicalOrder)
      ([0, 1, 2, 3, 4, 5, 6, 7, 8, 9, 10, 11, 12, 13, 14, 15, 16].map testBWith) 0
      = (.ok ([8, 16, 15, 14, 13, 12, 11, 10, 9, 0, 7, 6, 5, 4, 3, 2, 1].map testBWith), 0) ∧
    sortTests (libstdcxxPlatform true) lcg (mkConfig .InLexicographicalOrder)
      ([8, 16, 15, 14, 13, 12, 11, 10, 9, 0, 7, 6, 5, 4, 3, 2, 1].map testBWith) 0
      = (.ok ([9, 1, 2, 3, 4, 5, 6, 7, 0, 8, 10, 11, 12, 13, 14, 15, 16].map testBWith), 0) ∧
    [9, 1, 2, 3, 4, 5, 6, 7, 0, 8, 10, 11, 12, 13, 14, 15, 16].map testBWith
      ≠ [8, 16, 15, 14, 13, 12, 11, 10, 9, 0, 7, 6, 5, 4, 3, 2, 1].map testBWith ∧
    sortTests (libstdcxxPlatform true) lcg (mkConfig .InLexicographicalOrder)
      [testB, testB2] 0 = (.ok [testB, testB2], 0) := by
  decide

theorem HashTest.new_eq {σ : Type} (G : SimplePcg32 σ) (S : Nat) :
    (HashTest.new G (G.seed S)).1 = ⟨specBasis G S⟩ := by
  have := HashTest.new_basis G S
  cases hn : (HashTest.new G (G.seed S)).1
  rw [hn] at this
  simp only at this
  rw [this]

theorem sortTests_randomOrder_eq {σ : Type} (P : Platform) (G : SimplePcg32 σ)
    (S : Nat) (allowThrows : Bool) (H : List TestCaseHandle) (rng : σ) :
    (sortTests P G ⟨.InRandomOrder, S, allowThrows⟩ H rng).1 =
      .ok ((P.sort pairLt (H.map (fun handle =>
        (HashTest.hash P ⟨specBasis G S⟩ handle.m_info, handle)))).map (fun indexed => indexed.2)) := by
  simp only [sortTests, HashTest.new_eq, TestCaseHandle.getTestCaseInfo]

theorem sortTests_randomOrder_perm (P : Platform) (hash : TestCaseInfo → Nat)
    (H : List TestCaseHandle) :
    ((P.sort pairLt (H.map (fun handle => (hash handle.m_info, handle)))).map
      (fun indexed => indexed.2)).Perm H := by
  have hp := P.sort_perm pairLt pairLt_strictWeakOrdering
    (H.map (fun handle => (hash handle.m_info, handle)))
  have h1 := hp.map (fun indexed : Nat × TestCaseHandle => indexed.2)
  have h2 : (H.map (fun handle => (hash handle.m_info, handle))).map
      (fun indexed : Nat × TestCaseHandle => indexed.2) = H := by
    simp [List.map_map, Function.comp_def]
  rw [h2] at h1
  exact h1

/-- C3. With run order `InRandomOrder` and seed `S`, for every sequence of handles
`H`, `sortTests` returns a rearrangement of `H` in which every element comes
before a later one in the order of the pairs (hash of the name, handle): its hash
is smaller, or the hashes are equal and it is not greater in the handles' ordering.
The hash is taken under one basis for the whole sort, `first << 32 | second` with
`first`, `second` the first two values of the generator freshly seeded with `S`;
the generator is left in the state that follows these two draws. -/
theorem sortTests_randomOrder {σ : Type} (P : Platform) (G : SimplePcg32 σ)
    (S : Nat) (allowThrows : Bool) (H : List TestCaseHandle) (rng : σ) :
    ∃ randomized : List TestCaseHandle,
      (sortTests P G ⟨.InRandomOrder, S, allowThrows⟩ H rng).1 = .ok randomized ∧
      (sortTests P G ⟨.InRandomOrder, S, allowThrows⟩ H rng).2
        = (G.call (G.call (G.seed S)).2).2 ∧
      randomized.Perm H ∧
      randomized.Pairwise (fun a b =>
        HashTest.hash P ⟨specBasis G S⟩ a.m_info < HashTest.hash P ⟨specBasis G S⟩ b.m_info ∨
        (HashTest.hash P ⟨specBasis G S⟩ a.m_info = HashTest.hash P ⟨specBasis G S⟩ b.m_info ∧
          b.lt a = false)) := by
  have hp := P.sort_perm pairLt pairLt_strictWeakOrdering
    (H.map (fun handle => (HashTest.hash P ⟨specBasis G S⟩ handle.m_info, handle)))
  have hs := P.sort_sorted pairLt pairLt_strictWeakOrdering
    (H.map (fun handle => (HashTest.hash P ⟨specBasis G S⟩ handle.m_info, handle)))
  refine ⟨_, sortTests_randomOrder_eq P G S allowThrows H rng, rfl,
    sortTests_randomOrder_perm P _ H, ?_⟩
  rw [List.pairwise_map]
  refine List.Pairwise.imp_of_mem ?_ hs
  intro a b ha hb hab
  obtain ⟨x, _, rfl⟩ := List.mem_map.1 (hp.subset ha)
  obtain ⟨y, _, rfl⟩ := List.mem_map.1 (hp.subset hb)
  simp only [pairLt, Bool.or_eq_false_iff, decide_eq_false_iff_not, not_lt,
    Bool.and_eq_false_imp, Bool.not_eq_true', decide_eq_false_iff_not] at hab ⊢
  obtain ⟨h1, h2⟩ := hab
  rcases lt_or_eq_of_le h1 with h3 | h3
  · exact Or.inl h3
  · exact Or.inr ⟨h3, h2 (le_of_eq h3.symm)⟩

/-! ## Hash-based shuffle -/

theorem charToUInt64_eq_val (P : Platform) (c : Byte)
    (h : P.charIsSigned = false ∨ c.val < 128) : charToUInt64 P c = c.val := by
  have hcond : (P.charIsSigned && decide (128 ≤ c.val)) = false := by
    rcases h with h | h
    · rw [h, Bool.false_and]
    · have h1 : ¬ (128 ≤ c.val) := by omega
      rw [decide_eq_false h1, Bool.and_false]
  simp only [charToUInt64, hcond, Bool.false_eq_true, if_false]

theorem foldl_hash_eq_specHash (P : Platform) (name : ByteString)
    (h : P.charIsSigned = false ∨ ∀ c ∈ name, c.val < 128) (basis : Nat) :
    name.foldl (fun hash c => ((hash ^^^ charToUInt64 P c) * HashTest.prime) % 2 ^ 64) basis
      = specHash basis name := by
  unfold specHash
  induction name generalizing basis with
  | nil => simp only [List.foldl_nil]
  | cons c rest ih =>
    have hc : charToUInt64 P c = c.val :=
      charToUInt64_eq_val P c (h.imp id (fun h => h c (List.mem_cons_self _ _)))
    have hrest : P.charIsSigned = false ∨ ∀ c ∈ rest, c.val < 128 :=
      h.imp id (fun h c hc => h c (List.mem_cons_of_mem _ hc))
    simp only [List.foldl_cons, hc, HashTest.prime]
    exact ih hrest _

/-- Where plain `char` is unsigned, or on a name whose bytes are all below 0x80,
the per-test hash is the fold of the specification; the hash of the empty name is
the basis; the hash depends on the name only. -/
theorem HashTest.hash_eq_specHash (P : Platform) (h : HashTest) (t : TestCaseInfo) :
    ((P.charIsSigned = false ∨ ∀ c ∈ t.name, c.val < 128) →
      h.hash P t = specHash h.basis t.name) ∧
    (t.name = [] → h.hash P t = h.basis) ∧
    (∀ t1 : TestCaseInfo, t1.name = t.name → h.hash P t1 = h.hash P t) := by
  refine ⟨fun hb => foldl_hash_eq_specHash P t.name hb h.basis, ?_, ?_⟩
  · intro hn
    simp [HashTest.hash, hn]
  · intro t1 h1
    simp [HashTest.hash, h1]

/-- C4, the input on which the code leaves the claim. Where plain `char` is signed,
the one-byte name 0x80 under basis 0 is hashed to
`((0 XOR 0xFFFFFFFFFFFFFF80) * 1099511628211) mod 2 ^ 64`, the byte being
sign-extended by `hash ^= c`, and not to `((0 XOR 0x80) * 1099511628211) mod 2 ^ 64`,
the fold of the claim. -/
theorem HashTest.hash_sign_extends_high_byte :
    HashTest.hash (insertionPlatform true) ⟨0⟩ ⟨[128], [], ⟨[116], 1⟩, false, false⟩
      = 18446603336221140608 ∧
    specHash 0 [128] = 140737488411008 ∧
    HashTest.hash (insertionPlatform true) ⟨0⟩ ⟨[128], [], ⟨[116], 1⟩, false, false⟩
      ≠ specHash 0 [128] := by
  decide

/-! ## Filter engine -/

theorem foldl_push_eq_filter {α : Type} (p : α → Bool) (l acc : List α) :
    l.foldl (fun filtered x => if p x then filtered ++ [x] else filtered) acc
      = acc ++ l.filter p := by
  induction l generalizing acc with
  | nil => simp
  | cons x rest ih =>
    rw [List.foldl_cons, ih]
    by_cases hx : p x = true
    · simp [hx, List.filter_cons]
    · simp [hx, List.filter_cons]

theorem filterTests_eq_filter (testCases : List TestCaseHandle) (testSpec : TestSpec)
    (config : IConfig) :
    filterTests testCases testSpec config = testCases.filter (fun testCase =>
      (!testSpec.hasFilters && !testCase.getTestCaseInfo.isHidden) ||
        (testSpec.hasFilters && matchTest testCase testSpec config)) := by
  unfold filterTests
  rw [foldl_push_eq_filter]
  rfl

/-- C5. With a spec without filters, whatever its matcher, the throw flags and
the config say, `filterTests` returns exactly the handles of `H` that are not
hidden, in the order of `H`: every hidden handle is left out, every other one is
kept. -/
theorem filterTests_without_filters (H : List TestCaseHandle)
    (matchesInfo : TestCaseInfo → Bool) (config : IConfig) :
    filterTests H ⟨false, matchesInfo⟩ config = H.filter (fun h => !h.m_info.isHidden) ∧
    (∀ h ∈ H, h.m_info.isHidden = true → h ∉ filterTests H ⟨false, matchesInfo⟩ config) ∧
    (∀ h ∈ H, h.m_info.isHidden = false → h ∈ filterTests H ⟨false, matchesInfo⟩ config) := by
  have h : filterTests H ⟨false, matchesInfo⟩ config = H.filter (fun h => !h.m_info.isHidden) := by
    rw [filterTests_eq_filter]
    simp [TestCaseHandle.getTestCaseInfo]
  refine ⟨h, ?_, ?_⟩
  · intro x _ hx
    simp [h, hx]
  · intro x hxH hx
    simp [h, hx, hxH]

/-- C6. With a spec that has filters, `filterTests` keeps exactly the handles of
`H` that the spec matches and that do not throw or are allowed to throw, in the
order of `H`. The hidden flag plays no role: a matching hidden test that is safe is
kept; a matching throwing test is left out when `allowThrows()` is false and kept
when it is true. -/
theorem filterTests_with_filters (H : List TestCaseHandle)
    (matchesInfo : TestCaseInfo → Bool) (config : IConfig) :
    filterTests H ⟨true, matchesInfo⟩ config =
      H.filter (fun h => matchesInfo h.m_info && (!h.m_info.throws || config.allowThrows)) ∧
    (∀ h : TestCaseHandle, h ∈ filterTests H ⟨true, matchesInfo⟩ config ↔
      h ∈ H ∧ matchesInfo h.m_info = true ∧
        (h.m_info.throws = false ∨ config.allowThrows = true)) ∧
    (∀ h ∈ H, matchesInfo h.m_info = true → h.m_info.throws = true →
      config.allowThrows = false → h ∉ filterTests H ⟨true, matchesInfo⟩ config) ∧
    (∀ h ∈ H, matchesInfo h.m_info = true → config.allowThrows = true →
      h ∈ filterTests H ⟨true, matchesInfo⟩ config) ∧
    (∀ h ∈ H, matchesInfo h.m_info = true → h.m_info.isHidden = true →
      h.m_info.throws = false → h ∈ filterTests H ⟨true, matchesInfo⟩ config) := by
  have h : filterTests H ⟨true, matchesInfo⟩ config =
      H.filter (fun h => matchesInfo h.m_info && (!h.m_info.throws || config.allowThrows)) := by
    rw [filterTests_eq_filter]
    simp [TestCaseHandle.getTestCaseInfo, matchTest, isThrowSafe]
  refine ⟨h, ?_, ?_, ?_, ?_⟩
  · intro x
    simp [h]
  · intro x _ hm ht ha
    simp [h, hm, ht, ha]
  · intro x hx hm ha
    simp [h, hx, hm, ha]
  · intro x hx hm _ ht
    simp [h, hx, hm, ht]

/-! ## Duplicate detection -/

theorem equivalent_iff_identity_eq (g f : TestCaseHandle) :
    (!g.lt f && !f.lt g) = true ↔ g.m_info.identity = f.m_info.identity := by
  simp only [Bool.and_eq_true, Bool.not_eq_true', TestCaseHandle.lt_eq_false_iff]
  constructor
  · rintro ⟨h1, h2⟩
    exact le_antisymm h2 h1
  · intro h
    exact ⟨le_of_eq h.symm, le_of_eq h⟩

theorem pairwise_prefix_getElem? {α : Type} {R : α → α → Prop} (p rest : List α)
    (hp : p.Pairwise R) (i j : Nat) (a b : α) (hij : i < j) (hj : j < p.length)
    (ha : (p ++ rest)[i]? = some a) (hb : (p ++ rest)[j]? = some b) : R a b := by
  have hi : i < p.length := lt_trans hij hj
  rw [List.getElem?_append_left hi] at ha
  rw [List.getElem?_append_left hj] at hb
  obtain ⟨_, rfl⟩ := List.getElem?_eq_some.1 ha
  obtain ⟨_, rfl⟩ := List.getElem?_eq_some.1 hb
  exact List.pairwise_iff_getElem.1 hp i j hi hj hij

theorem distinctIdentities_iff_not_hasDuplicate (H : List TestCaseHandle) :
    DistinctIdentities H ↔ ¬ HasDuplicate H := by
  unfold DistinctIdentities HasDuplicate
  rw [List.pairwise_iff_getElem]
  constructor
  · rintro h ⟨i, j, a, b, hij, ha, hb, hab⟩
    obtain ⟨hi, rfl⟩ := List.getElem?_eq_some.1 ha
    obtain ⟨hj, rfl⟩ := List.getElem?_eq_some.1 hb
    exact h i j hi hj hij hab
  · intro h i j hi hj hij hab
    exact h ⟨i, j, H[i], H[j], hij, List.getElem?_eq_getElem hi, List.getElem?_eq_getElem hj, hab⟩

theorem enforceLoop_ok_iff (rest : List TestCaseHandle) :
    ∀ seen : List TestCaseHandle, DistinctIdentities seen →
      (enforceLoop seen rest = .ok () ↔ DistinctIdentities (seen ++ rest)) := by
  induction rest with
  | nil => intro seen hseen; simpa [enforceLoop] using hseen
  | cons f rest ih =>
    intro seen hseen
    cases hfind : seen.find? (fun g => !g.lt f && !f.lt g) with
    | none =>
      have hnone : ∀ x ∈ seen, x.m_info.identity ≠ f.m_info.identity := by
        intro x hx hid
        have := List.find?_eq_none.1 hfind x hx
        exact this ((equivalent_iff_identity_eq x f).2 hid)
      have hseen1 : DistinctIdentities (seen ++ [f]) := by
        unfold DistinctIdentities at *
        rw [List.pairwise_append]
        refine ⟨hseen, List.pairwise_singleton _ _, ?_⟩
        intro a ha b hb
        rw [List.mem_singleton] at hb
        subst hb
        exact hnone a ha
      have := ih (seen ++ [f]) hseen1
      simp only [enforceLoop, setInsert, hfind, if_true]
      rw [this, List.append_assoc, List.singleton_append]
    | some prev =>
      have hmem := List.mem_of_find?_eq_some hfind
      have hp := List.find?_some hfind
      have hid := (equivalent_iff_identity_eq prev f).1 hp
      simp only [enforceLoop, setInsert, hfind, Bool.false_eq_true, if_false]
      constructor
      · intro h; cases h
      · intro h
        unfold DistinctIdentities at h
        rw [List.pairwise_append] at h
        exact absurd hid (h.2.2 prev hmem f (List.mem_cons_self _ _))

theorem enforceLoop_error (rest : List TestCaseHandle) :
    ∀ (seen : List TestCaseHandle) (e : CatchError), DistinctIdentities seen →
      enforceLoop seen rest = .error e →
      ∃ pre x mid y post, seen ++ rest = (pre ++ x :: mid) ++ y :: post ∧
        DistinctIdentities (pre ++ x :: mid) ∧
        x.m_info.identity = y.m_info.identity ∧
        e = .enforce y.m_info.name x.m_info.lineInfo y.m_info.lineInfo := by
  induction rest with
  | nil => intro seen e _ h; simp [enforceLoop] at h
  | cons f rest ih =>
    intro seen e hseen h
    cases hfind : seen.find? (fun g => !g.lt f && !f.lt g) with
    | none =>
      have hnone : ∀ x ∈ seen, x.m_info.identity ≠ f.m_info.identity := by
        intro x hx hid
        have := List.find?_eq_none.1 hfind x hx
        exact this ((equivalent_iff_identity_eq x f).2 hid)
      have hseen1 : DistinctIdentities (seen ++ [f]) := by
        unfold DistinctIdentities at *
        rw [List.pairwise_append]
        refine ⟨hseen, List.pairwise_singleton _ _, ?_⟩
        intro a ha b hb
        rw [List.mem_singleton] at hb
        subst hb
        exact hnone a ha
      simp only [enforceLoop, setInsert, hfind, if_true] at h
      obtain ⟨pre, x, mid, y, post, h1, h2, h3, h4⟩ := ih (seen ++ [f]) e hseen1 h
      refine ⟨pre, x, mid, y, post, ?_, h2, h3, h4⟩
      rw [← h1, List.append_assoc, List.singleton_append]
    | some prev =>
      have hp := List.find?_some hfind
      have hid := (equivalent_iff_identity_eq prev f).1 hp
      obtain ⟨_, as, bs, hsplit, _⟩ := List.find?_eq_some.1 hfind
      simp only [enforceLoop, setInsert, hfind, Bool.false_eq_true, if_false,
        TestCaseHandle.getTestCaseInfo] at h
      refine ⟨as, prev, bs, f, rest, by rw [hsplit], by rw [← hsplit]; exact hseen, hid, ?_⟩
      cases h
      rfl

theorem enforceNoDuplicateTestCases_ok_iff (l : List TestCaseHandle) :
    enforceNoDuplicateTestCases l = .ok () ↔ ¬ HasDuplicate l := by
  rw [← distinctIdentities_iff_not_hasDuplicate]
  have := enforceLoop_ok_iff l [] List.Pairwise.nil
  simpa [enforceNoDuplicateTestCases] using this

/-- C7. The check `enforceNoDuplicateTestCases` fails exactly when two positions
`i < j` of `H` hold descriptors of one identity `(name, tags, sourceLocation)`, and
succeeds otherwise; it succeeds on the empty sequence and on two descriptors that
differ in their source location only. -/
theorem enforceNoDuplicateTestCases_fails_iff (H : List TestCaseHandle) :
    ((∃ e, enforceNoDuplicateTestCases H = .error e) ↔ HasDuplicate H) ∧
    (enforceNoDuplicateTestCases H = .ok () ↔ ¬ HasDuplicate H) ∧
    enforceNoDuplicateTestCases [] = .ok () ∧
    (∀ (name : ByteString) (tags : List ByteString) (loc1 loc2 : SourceLineInfo)
      (hidden1 hidden2 throws1 throws2 : Bool) (invoker1 invoker2 : Nat), loc1 ≠ loc2 →
      enforceNoDuplicateTestCases [⟨⟨name, tags, loc1, hidden1, throws1⟩, invoker1⟩,
        ⟨⟨name, tags, loc2, hidden2, throws2⟩, invoker2⟩] = .ok ()) := by
  have hok := enforceNoDuplicateTestCases_ok_iff
  refine ⟨?_, hok H, rfl, ?_⟩
  · constructor
    · rintro ⟨e, he⟩
      by_contra hnd
      rw [(hok H).2 hnd] at he
      cases he
    · intro hd
      cases hres : enforceNoDuplicateTestCases H with
      | error e => exact ⟨e, rfl⟩
      | ok u => exact absurd hd ((hok H).1 hres)
  · intro name tags loc1 loc2 hidden1 hidden2 throws1 throws2 invoker1 invoker2 hloc
    rw [hok, ← distinctIdentities_iff_not_hasDuplicate]
    unfold DistinctIdentities
    simp only [List.pairwise_cons, List.mem_singleton, forall_eq, List.not_mem_nil,
      false_implies, implies_true, List.Pairwise.nil, and_true, TestCaseInfo.identity]
    intro h
    apply hloc
    have h1 := congrArg (fun k : Identity => (ofLex (ofLex (ofLex k).2).2)) h
    simp only [ofLex_toLex] at h1
    cases loc1; cases loc2
    simp only [Prod.mk.injEq] at h1
    simp [h1.1, h1.2]

/-- C8. When `enforceNoDuplicateTestCases` fails, the error is raised at the first
collision in scan order: at the smallest position `j` holding a handle `y` whose
identity is already held at a position `i < j`. The error carries the name of `y`,
as "first seen" location that of the earliest handle `x` of `H` with the identity
of `y`, and as "redefined" location that of `y`. -/
theorem enforceNoDuplicateTestCases_error (H : List TestCaseHandle) (e : CatchError)
    (h : enforceNoDuplicateTestCases H = .error e) :
    ∃ (i j : Nat) (x y : TestCaseHandle), i < j ∧ H[i]? = some x ∧ H[j]? = some y ∧
      x.m_info.identity = y.m_info.identity ∧
      (∀ (i1 j1 : Nat) (a b : TestCaseHandle), i1 < j1 → j1 < j → H[i1]? = some a →
        H[j1]? = some b → a.m_info.identity ≠ b.m_info.identity) ∧
      (∀ (k : Nat) (z : TestCaseHandle), k < i → H[k]? = some z →
        z.m_info.identity ≠ y.m_info.identity) ∧
      e = .enforce y.m_info.name x.m_info.lineInfo y.m_info.lineInfo := by
  obtain ⟨pre, x, mid, y, post, h1, h2, h3, h4⟩ :=
    enforceLoop_error H [] e List.Pairwise.nil h
  rw [List.nil_append] at h1
  have hlen : (pre ++ x :: mid).length = pre.length + 1 + mid.length := by
    simp only [List.length_append, List.length_cons]
    omega
  have hx : H[pre.length]? = some x := by
    rw [h1, List.append_assoc, List.getElem?_append_right (le_refl _)]
    simp
  have hy : H[pre.length + 1 + mid.length]? = some y := by
    rw [h1, ← hlen, List.getElem?_append_right (le_refl _)]
    simp
  refine ⟨pre.length, pre.length + 1 + mid.length, x, y, by omega, hx, hy, h3, ?_, ?_, h4⟩
  · intro i1 j1 a b hij hj ha hb
    rw [h1] at ha hb
    exact pairwise_prefix_getElem? _ _ h2 i1 j1 a b hij (by rw [hlen]; exact hj) ha hb
  · intro k z hk hz
    rw [h1] at hz
    have := pairwise_prefix_getElem? (pre ++ x :: mid) (y :: post) h2 k pre.length z x hk
      (by rw [hlen]; omega) hz (by rw [← h1]; exact hx)
    rw [← h3]
    exact this

/-- C8 at `[B@loc1, A@loc2, C@loc3, B@loc1]`: the error names "B" and gives `loc1`
(line 10 of file "t") twice. -/
theorem enforceNoDuplicateTestCases_error_witness :
    enforceNoDuplicateTestCases [testB, testA, testC, testB2]
      = .error (.enforce [66] ⟨[116], 10⟩ ⟨[116], 10⟩) ∧
    ∃ (i j : Nat) (x y : TestCaseHandle), i < j ∧
      [testB, testA, testC, testB2][i]? = some x ∧
      [testB, testA, testC, testB2][j]? = some y ∧
      x.m_info.identity = y.m_info.identity ∧
      (∀ (i1 j1 : Nat) (a b : TestCaseHandle), i1 < j1 → j1 < j →
        [testB, testA, testC, testB2][i1]? = some a →
        [testB, testA, testC, testB2][j1]? = some b → a.m_info.identity ≠ b.m_info.identity) ∧
      (∀ (k : Nat) (z : TestCaseHandle), k < i → [testB, testA, testC, testB2][k]? = some z →
        z.m_info.identity ≠ y.m_info.identity) ∧
      CatchError.enforce [66] ⟨[116], 10⟩ ⟨[116], 10⟩
        = .enforce y.m_info.name x.m_info.lineInfo y.m_info.lineInfo :=
  ⟨by decide, enforceNoDuplicateTestCases_error _ _ (by decide)⟩

/-! ## Registry -/

theorem DistinctIdentities.perm {l1 l2 : List TestCaseHandle} (h : l1.Perm l2)
    (hd : DistinctIdentities l2) : DistinctIdentities l1 :=
  List.Pairwise.perm hd h.symm (fun hab => Ne.symm hab)

theorem sortTests_ok_perm {σ : Type} (P : Platform) (G : SimplePcg32 σ) (config : IConfig)
    (H view : List TestCaseHandle) (rng : σ)
    (h : (sortTests P G config H rng).1 = .ok view) : view.Perm H := by
  obtain ⟨order, seed, allowThrows⟩ := config
  cases order with
  | InDeclarationOrder =>
    simp only [sortTests, Except.ok.injEq] at h
    rw [← h]
  | InLexicographicalOrder =>
    simp only [sortTests, Except.ok.injEq] at h
    rw [← h]
    exact P.sort_perm TestCaseHandle.lt TestCaseHandle.strictWeakOrdering H
  | InRandomOrder =>
    rw [sortTests_randomOrder_eq, Except.ok.injEq] at h
    rw [← h]
    exact sortTests_randomOrder_perm P _ H
  | unrecognised v => simp [sortTests] at h

theorem getAllTestsSorted_of_empty_ok {σ : Type} (P : Platform) (G : SimplePcg32 σ)
    (r : TestRegistry) (config : IConfig) (rng : σ) (hempty : r.m_sortedFunctions = [])
    (hok : enforceNoDuplicateTestCases r.m_handles = .ok ()) :
    (r.getAllTestsSorted P G config rng).1 = (sortTests P G config r.m_handles rng).1 := by
  unfold TestRegistry.getAllTestsSorted
  simp only [hempty, List.isEmpty_nil, if_true, hok, Bool.or_true]
  rcases hs : sortTests P G config r.m_handles rng with ⟨res, rng1⟩
  cases res <;> rfl

theorem getAllTestsSorted_of_order_ne {σ : Type} (P : Platform) (G : SimplePcg32 σ)
    (r : TestRegistry) (config : IConfig) (rng : σ) (hne : r.m_sortedFunctions ≠ [])
    (hord : r.m_currentSortOrder ≠ config.runOrder) :
    (r.getAllTestsSorted P G config rng).1 = (sortTests P G config r.m_handles rng).1 := by
  unfold TestRegistry.getAllTestsSorted
  have h1 : r.m_sortedFunctions.isEmpty = false := by
    cases hsf : r.m_sortedFunctions with
    | nil => exact absurd hsf hne
    | cons a l => rfl
  simp only [h1, Bool.false_eq_true, if_false, Bool.or_false, decide_eq_true_eq, hord,
    ne_eq, not_false_eq_true, decide_True, if_true]
  rcases hs : sortTests P G config r.m_handles rng with ⟨res, rng1⟩
  cases res <;> rfl

/-- C9, as amended. In every state of the registry, hence after every sequence of
`registerTest` and `getAllTestsSorted` calls, and for every config: a call of
`getAllTestsSorted` that finds the cached view empty while two registered
descriptors have one identity fails with the duplicate-test error and leaves the
registry and the generator as they were; and a view returned by a call that found
the cached view empty holds no two handles of one identity. -/
theorem getAllTestsSorted_checks_duplicates_on_empty_cache {σ : Type} (P : Platform)
    (G : SimplePcg32 σ) (r : TestRegistry) (config : IConfig) (rng : σ)
    (hempty : r.m_sortedFunctions = []) :
    (HasDuplicate r.m_handles → ∃ name firstSeen redefined,
      r.getAllTestsSorted P G config rng = (.error (.enforce name firstSeen redefined), r, rng)) ∧
    (∀ view, (r.getAllTestsSorted P G config rng).1 = .ok view → ¬ HasDuplicate view) := by
  constructor
  · intro hd
    cases he : enforceNoDuplicateTestCases r.m_handles with
    | ok u => exact absurd hd ((enforceNoDuplicateTestCases_ok_iff r.m_handles).1 he)
    | error e =>
    obtain ⟨_, x, _, y, _, _, _, _, h4⟩ :=
      enforceLoop_error r.m_handles [] e List.Pairwise.nil he
    refine ⟨y.m_info.name, x.m_info.lineInfo, y.m_info.lineInfo, ?_⟩
    unfold TestRegistry.getAllTestsSorted
    simp only [hempty, List.isEmpty_nil, if_true, he, h4]
  · intro view hview
    cases hres : enforceNoDuplicateTestCases r.m_handles with
    | error e =>
      unfold TestRegistry.getAllTestsSorted at hview
      simp [hempty, hres] at hview
    | ok u =>
      rw [getAllTestsSorted_of_empty_ok P G r config rng hempty hres] at hview
      have hperm := sortTests_ok_perm P G config r.m_handles view rng hview
      have hd := (enforceNoDuplicateTestCases_ok_iff r.m_handles).1 hres
      rw [← distinctIdentities_iff_not_hasDuplicate] at hd ⊢
      exact hd.perm hperm

/-- C9 at the registry holding "B" twice before any query: the query fails with the
duplicate-test error naming "B" and line 10 of file "t" twice, in every run order. -/
theorem getAllTestsSorted_checks_duplicates_on_empty_cache_witness :
    HasDuplicate registryWithDuplicate.m_handles ∧
    registryWithDuplicate.getAllTestsSorted (insertionPlatform true) lcg
        (mkConfig .InDeclarationOrder) 0
      = (.error (.enforce [66] ⟨[116], 10⟩ ⟨[116], 10⟩), registryWithDuplicate, 0) ∧
    ((HasDuplicate registryWithDuplicate.m_handles → ∃ name firstSeen redefined,
      registryWithDuplicate.getAllTestsSorted (insertionPlatform true) lcg
          (mkConfig .InDeclarationOrder) 0
        = (.error (.enforce name firstSeen redefined), registryWithDuplicate, 0)) ∧
    (∀ view, (registryWithDuplicate.getAllTestsSorted (insertionPlatform true) lcg
        (mkConfig .InDeclarationOrder) 0).1 = .ok view → ¬ HasDuplicate view)) :=
  ⟨⟨0, 1, testB, testB2, by decide, by decide, by decide, by decide⟩, by decide,
    getAllTestsSorted_checks_duplicates_on_empty_cache (insertionPlatform true) lcg
      registryWithDuplicate (mkConfig .InDeclarationOrder) 0 (by decide)⟩

/-- C9, a sequence of calls on which the claim fails: register "B", query in
declaration order, register "B" at the same location again. The registry then
holds two descriptors of one identity, and yet a query in declaration order
returns the cached view `[B]`, and a query in lexicographical order returns a view
holding both handles. -/
theorem getAllTestsSorted_succeeds_with_late_duplicate :
    registryWithLateDuplicate.m_handles = [testB, testB2] ∧
    testB.m_info.identity = testB2.m_info.identity ∧
    (registryWithLateDuplicate.getAllTestsSorted (insertionPlatform true) lcg
      (mkConfig .InDeclarationOrder) 0).1 = .ok [testB] ∧
    (registryWithLateDuplicate.getAllTestsSorted (insertionPlatform true) lcg
      (mkConfig .InLexicographicalOrder) 0).1 = .ok [testB, testB2] := by
  decide

/-- C10, as amended. In every state of the registry whose handles hold no
duplicate, hence in every such state reached by `registerTest` and
`getAllTestsSorted` calls, and for every config: when the cached view is empty or
the stored run order is not `config.runOrder()`, `getAllTestsSorted(config)` returns
what `sortTests(config, getAllTests())` returns, and a view so returned holds
exactly the handles registered so far. -/
theorem getAllTestsSorted_eq_sortTests_when_cache_stale {σ : Type} (P : Platform)
    (G : SimplePcg32 σ) (r : TestRegistry) (config : IConfig) (rng : σ)
    (hnodup : ¬ HasDuplicate r.m_handles)
    (hstale : r.m_sortedFunctions = [] ∨ r.m_currentSortOrder ≠ config.runOrder) :
    (r.getAllTestsSorted P G config rng).1 = (sortTests P G config r.getAllTests rng).1 ∧
    (∀ view, (r.getAllTestsSorted P G config rng).1 = .ok view → view.Perm r.getAllTests) := by
  have h : (r.getAllTestsSorted P G config rng).1
      = (sortTests P G config r.getAllTests rng).1 := by
    by_cases hempty : r.m_sortedFunctions = []
    · exact getAllTestsSorted_of_empty_ok P G r config rng hempty
        ((enforceNoDuplicateTestCases_ok_iff r.m_handles).2 hnodup)
    · exact getAllTestsSorted_of_order_ne P G r config rng hempty
        (hstale.resolve_left hempty)
  refine ⟨h, ?_⟩
  intro view hview
  rw [h] at hview
  exact sortTests_ok_perm P G config r.getAllTests view rng hview

/-- C10 at two registries: "B", "A", "C" registered and no query made yet, asked in
lexicographical order, gives `[A, B, C]`; and the registry that cached `[B]` in
declaration order before "A" was registered, asked in lexicographical order, gives
`[A, B]`. -/
theorem getAllTestsSorted_eq_sortTests_when_cache_stale_witness :
    (registryBAC.getAllTestsSorted (insertionPlatform true) lcg
      (mkConfig .InLexicographicalOrder) 0).1 = .ok [testA, testB, testC] ∧
    ((registryBAC.getAllTestsSorted (insertionPlatform true) lcg
        (mkConfig .InLexicographicalOrder) 0).1
      = (sortTests (insertionPlatform true) lcg (mkConfig .InLexicographicalOrder)
          registryBAC.getAllTests 0).1 ∧
     (∀ view, (registryBAC.getAllTestsSorted (insertionPlatform true) lcg
        (mkConfig .InLexicographicalOrder) 0).1 = .ok view →
        view.Perm registryBAC.getAllTests)) ∧
    (registryWithLateTest.getAllTestsSorted (insertionPlatform true) lcg
      (mkConfig .InLexicographicalOrder) 0).1 = .ok [testA, testB] :=
  ⟨by decide,
   getAllTestsSorted_eq_sortTests_when_cache_stale (insertionPlatform true) lcg registryBAC
     (mkConfig .InLexicographicalOrder) 0
     ((enforceNoDuplicateTestCases_ok_iff _).1 (by decide)) (Or.inl (by decide)),
   by decide⟩

/-- C10, a sequence of calls on which the claim fails: register "B", query in
declaration order, register "A". The registry holds `[B, A]`, without duplicate,
`sortTests` in declaration order gives `[B, A]`, and yet the query in declaration
order returns the cached view `[B]`, without the handle registered after the
first query. -/
theorem getAllTestsSorted_returns_stale_view :
    registryWithLateTest.getAllTests = [testB, testA] ∧
    ¬ HasDuplicate registryWithLateTest.getAllTests ∧
    (sortTests (insertionPlatform true) lcg (mkConfig .InDeclarationOrder)
      registryWithLateTest.getAllTests 0).1 = .ok [testB, testA] ∧
    (registryWithLateTest.getAllTestsSorted (insertionPlatform true) lcg
      (mkConfig .InDeclarationOrder) 0).1 = .ok [testB] :=
  ⟨by decide, (enforceNoDuplicateTestCases_ok_iff _).1 (by decide), by decide, by decide⟩

/-! ## Registry: the caching rule -/

theorem isEmpty_eq_false_of_ne_nil {α : Type} (l : List α) (h : l ≠ []) : l.isEmpty = false := by
  cases l with
  | nil => exact absurd rfl h
  | cons a l => rfl

theorem getAllTestsSorted_of_stale {σ : Type} (P : Platform) (G : SimplePcg32 σ)
    (r : TestRegistry) (config : IConfig) (rng : σ)
    (hcheck : r.m_sortedFunctions = [] → enforceNoDuplicateTestCases r.m_handles = .ok ())
    (hstale : r.m_sortedFunctions = [] ∨ r.m_currentSortOrder ≠ config.runOrder) :
    r.getAllTestsSorted P G config rng =
      match sortTests P G config r.m_handles rng with
      | (.error e, rng1) => (.error e, r, rng1)
      | (.ok sorted, rng1) =>
        (.ok sorted,
          { r with m_sortedFunctions := sorted, m_currentSortOrder := config.runOrder }, rng1) := by
  unfold TestRegistry.getAllTestsSorted
  by_cases hempty : r.m_sortedFunctions = []
  · simp only [hempty, List.isEmpty_nil, if_true, hcheck hempty, Bool.or_true]
  · have h1 := isEmpty_eq_false_of_ne_nil _ hempty
    have hord := hstale.resolve_left hempty
    simp only [h1, Bool.false_eq_true, if_false, Bool.or_false, decide_eq_true_eq, hord,
      ne_eq, not_false_eq_true, decide_True, if_true]

theorem getAllTestsSorted_of_fresh {σ : Type} (P : Platform) (G : SimplePcg32 σ)
    (r : TestRegistry) (config : IConfig) (rng : σ) (hne : r.m_sortedFunctions ≠ [])
    (hord : r.m_currentSortOrder = config.runOrder) :
    r.getAllTestsSorted P G config rng = (.ok r.m_sortedFunctions, r, rng) := by
  unfold TestRegistry.getAllTestsSorted
  have h1 := isEmpty_eq_false_of_ne_nil _ hne
  simp [h1, hord]

/-- C11. On a registry whose handles hold no duplicate, `getAllTestsSorted(config)`
follows the caching rule. When the cached view is empty or the stored run order is
not `config.runOrder()`, it recomputes: it returns what `sortTests(config, handles)`
returns and stores that view with `config.runOrder()` (and stores nothing when
`sortTests` fails). Otherwise it returns the cached view and leaves the registry
and the generator as they were. After every successful call the stored run order
is `config.runOrder()` and the view returned is the cached view. -/
theorem getAllTestsSorted_caching_rule {σ : Type} (P : Platform) (G : SimplePcg32 σ)
    (r : TestRegistry) (config : IConfig) (rng : σ) (hnodup : ¬ HasDuplicate r.m_handles) :
    ((r.m_sortedFunctions = [] ∨ r.m_currentSortOrder ≠ config.runOrder) →
      (∀ sorted rng1, sortTests P G config r.m_handles rng = (.ok sorted, rng1) →
        r.getAllTestsSorted P G config rng =
          (.ok sorted,
            { r with m_sortedFunctions := sorted, m_currentSortOrder := config.runOrder },
            rng1)) ∧
      (∀ e rng1, sortTests P G config r.m_handles rng = (.error e, rng1) →
        r.getAllTestsSorted P G config rng = (.error e, r, rng1))) ∧
    ((r.m_sortedFunctions ≠ [] ∧ r.m_currentSortOrder = config.runOrder) →
      r.getAllTestsSorted P G config rng = (.ok r.m_sortedFunctions, r, rng)) ∧
    (∀ view r1 rng1, r.getAllTestsSorted P G config rng = (.ok view, r1, rng1) →
      r1.m_currentSortOrder = config.runOrder ∧ view = r1.m_sortedFunctions ∧
      r1.m_handles = r.m_handles) := by
  have hcheck : r.m_sortedFunctions = [] → enforceNoDuplicateTestCases r.m_handles = .ok () :=
    fun _ => (enforceNoDuplicateTestCases_ok_iff r.m_handles).2 hnodup
  refine ⟨fun hstale => ⟨?_, ?_⟩, ?_, ?_⟩
  · intro sorted rng1 hs
    rw [getAllTestsSorted_of_stale P G r config rng hcheck hstale, hs]
  · intro e rng1 hs
    rw [getAllTestsSorted_of_stale P G r config rng hcheck hstale, hs]
  · rintro ⟨hne, hord⟩
    exact getAllTestsSorted_of_fresh P G r config rng hne hord
  · intro view r1 rng1 h
    by_cases hstale : r.m_sortedFunctions = [] ∨ r.m_currentSortOrder ≠ config.runOrder
    · rw [getAllTestsSorted_of_stale P G r config rng hcheck hstale] at h
      rcases hs : sortTests P G config r.m_handles rng with ⟨res, rng2⟩
      rw [hs] at h
      cases res with
      | error e => simp at h
      | ok sorted =>
        simp only [Prod.mk.injEq, Except.ok.injEq] at h
        obtain ⟨h1, h2, _⟩ := h
        subst h1 h2
        exact ⟨rfl, rfl, rfl⟩
    · rw [not_or, not_not] at hstale
      rw [getAllTestsSorted_of_fresh P G r config rng hstale.1 hstale.2] at h
      simp only [Prod.mk.injEq, Except.ok.injEq] at h
      obtain ⟨h1, h2, _⟩ := h
      subst h1 h2
      exact ⟨hstale.2, rfl, rfl⟩

/-- C11 at the registry that cached `[B]` in declaration order before "A" was
registered: asked in declaration order it returns the cached `[B]` and changes
nothing; asked in lexicographical order it returns `[A, B]` and stores it. -/
theorem getAllTestsSorted_caching_rule_witness :
    registryWithLateTest.getAllTestsSorted (insertionPlatform true) lcg
        (mkConfig .InDeclarationOrder) 0 = (.ok [testB], registryWithLateTest, 0) ∧
    registryWithLateTest.getAllTestsSorted (insertionPlatform true) lcg
        (mkConfig .InLexicographicalOrder) 0
      = (.ok [testA, testB],
          { registryWithLateTest with
            m_sortedFunctions := [testA, testB]
            m_currentSortOrder := .InLexicographicalOrder }, 0) ∧
    ((registryWithLateTest.m_sortedFunctions ≠ [] ∧
        registryWithLateTest.m_currentSortOrder = (mkConfig .InDeclarationOrder).runOrder) →
      registryWithLateTest.getAllTestsSorted (insertionPlatform true) lcg
        (mkConfig .InDeclarationOrder) 0
        = (.ok registryWithLateTest.m_sortedFunctions, registryWithLateTest, 0)) :=
  ⟨by decide, by decide,
    (getAllTestsSorted_caching_rule (insertionPlatform true) lcg registryWithLateTest
      (mkConfig .InDeclarationOrder) 0
      ((enforceNoDuplicateTestCases_ok_iff _).1 (by decide))).2.1⟩

theorem getAllTestsSorted_of_empty_error {σ : Type} (P : Platform) (G : SimplePcg32 σ)
    (r : TestRegistry) (config : IConfig) (rng : σ) (hempty : r.m_sortedFunctions = [])
    (hdup : HasDuplicate r.m_handles) :
    ∃ name firstSeen redefined,
      r.getAllTestsSorted P G config rng = (.error (.enforce name firstSeen redefined), r, rng) := by
  cases he : enforceNoDuplicateTestCases r.m_handles with
  | ok u => exact absurd hdup ((enforceNoDuplicateTestCases_ok_iff r.m_handles).1 he)
  | error e =>
    obtain ⟨_, x, _, y, _, _, _, _, h4⟩ :=
      enforceLoop_error r.m_handles [] e List.Pairwise.nil he
    refine ⟨y.m_info.name, x.m_info.lineInfo, y.m_info.lineInfo, ?_⟩
    unfold TestRegistry.getAllTestsSorted
    simp only [hempty, List.isEmpty_nil, if_true, he, h4]

/-- C15. When `getAllTestsSorted(config)` is called on a registry whose cached view
is empty and whose handles hold a duplicate identity, then, for every config (every
run order, `InDeclarationOrder` included): the call fails with the duplicate-test
error, returns no view, and leaves the registry as it was, so that the cached view
is still empty and the stored run order is what it was. -/
theorem getAllTestsSorted_fails_on_duplicate {σ : Type} (P : Platform) (G : SimplePcg32 σ)
    (r : TestRegistry) (config : IConfig) (rng : σ) (hempty : r.m_sortedFunctions = [])
    (hdup : HasDuplicate r.m_handles) :
    (∃ name firstSeen redefined,
      (r.getAllTestsSorted P G config rng).1 = .error (.enforce name firstSeen redefined)) ∧
    (∀ view, (r.getAllTestsSorted P G config rng).1 ≠ .ok view) ∧
    (r.getAllTestsSorted P G config rng).2.1 = r ∧
    (r.getAllTestsSorted P G config rng).2.1.m_sortedFunctions = [] ∧
    (r.getAllTestsSorted P G config rng).2.1.m_currentSortOrder = r.m_currentSortOrder := by
  obtain ⟨name, firstSeen, redefined, h⟩ :=
    getAllTestsSorted_of_empty_error P G r config rng hempty hdup
  rw [h]
  refine ⟨⟨name, firstSeen, redefined, rfl⟩, ?_, rfl, hempty, rfl⟩
  intro view hview
  cases hview

/-- C15 at the registry holding "B" twice before any query, asked in declaration
order: the call fails with the error naming "B" and leaves the registry as it was. -/
theorem getAllTestsSorted_fails_on_duplicate_witness :
    registryWithDuplicate.getAllTestsSorted (insertionPlatform true) lcg
        (mkConfig .InDeclarationOrder) 0
      = (.error (.enforce [66] ⟨[116], 10⟩ ⟨[116], 10⟩), registryWithDuplicate, 0) ∧
    ((∃ name firstSeen redefined,
      (registryWithDuplicate.getAllTestsSorted (insertionPlatform true) lcg
        (mkConfig .InDeclarationOrder) 0).1 = .error (.enforce name firstSeen redefined)) ∧
    (∀ view, (registryWithDuplicate.getAllTestsSorted (insertionPlatform true) lcg
        (mkConfig .InDeclarationOrder) 0).1 ≠ .ok view) ∧
    (registryWithDuplicate.getAllTestsSorted (insertionPlatform true) lcg
        (mkConfig .InDeclarationOrder) 0).2.1 = registryWithDuplicate ∧
    (registryWithDuplicate.getAllTestsSorted (insertionPlatform true) lcg
        (mkConfig .InDeclarationOrder) 0).2.1.m_sortedFunctions = [] ∧
    (registryWithDuplicate.getAllTestsSorted (insertionPlatform true) lcg
        (mkConfig .InDeclarationOrder) 0).2.1.m_currentSortOrder
      = registryWithDuplicate.m_currentSortOrder) :=
  ⟨by decide,
    getAllTestsSorted_fails_on_duplicate (insertionPlatform true) lcg registryWithDuplicate
      (mkConfig .InDeclarationOrder) 0 (by decide)
      ⟨0, 1, testB, testB2, by decide, by decide, by decide, by decide⟩⟩

/-! ## Ordering engine: uniqueness of the random order -/

theorem sortTests_randomOrder_pairwise (P : Platform) (hash : TestCaseInfo → Nat)
    (H : List TestCaseHandle) :
    ((P.sort pairLt (H.map (fun handle => (hash handle.m_info, handle)))).map
      (fun indexed => indexed.2)).Pairwise
        (fun a b => pairLt (hash b.m_info, b) (hash a.m_info, a) = false) := by
  have hp := P.sort_perm pairLt pairLt_strictWeakOrdering
    (H.map (fun handle => (hash handle.m_info, handle)))
  have hs := P.sort_sorted pairLt pairLt_strictWeakOrdering
    (H.map (fun handle => (hash handle.m_info, handle)))
  rw [List.pairwise_map]
  refine List.Pairwise.imp_of_mem ?_ hs
  intro a b ha hb hab
  obtain ⟨x, _, rfl⟩ := List.mem_map.1 (hp.subset ha)
  obtain ⟨y, _, rfl⟩ := List.mem_map.1 (hp.subset hb)
  exact hab

theorem identity_eq_of_pair_incomparable (hash : TestCaseInfo → Nat) (a b : TestCaseHandle)
    (h1 : pairLt (hash b.m_info, b) (hash a.m_info, a) = false)
    (h2 : pairLt (hash a.m_info, a) (hash b.m_info, b) = false) :
    a.m_info.identity = b.m_info.identity := by
  rw [pairLt_eq, decide_eq_false_iff_not, not_lt] at h1 h2
  have h := le_antisymm h1 h2
  have h3 := congrArg (fun k : Lex (Nat × Identity) => (ofLex k).2) h
  simpa [pairKey] using h3

theorem eq_of_distinctIdentities {l : List TestCaseHandle} (hd : DistinctIdentities l) :
    ∀ a ∈ l, ∀ b ∈ l, a.m_info.identity = b.m_info.identity → a = b := by
  intro a ha b hb hab
  by_contra hne
  exact List.Pairwise.forall (fun _ _ h => Ne.symm h) hd ha hb hne hab

/-- A rearrangement of `l` sorted by (hash, handle) is what every conforming
`std::sort` makes of the random order of `l`, provided handles of `l` with the
same identity are the same handle. -/
theorem randomized_eq_of_sorted (P : Platform) (hash : TestCaseInfo → Nat)
    (l s : List TestCaseHandle) (hperm : s.Perm l)
    (hs : s.Pairwise (fun a b => pairLt (hash b.m_info, b) (hash a.m_info, a) = false))
    (hinj : ∀ a ∈ l, ∀ b ∈ l, a.m_info.identity = b.m_info.identity → a = b) :
    (P.sort pairLt (l.map (fun handle => (hash handle.m_info, handle)))).map
      (fun indexed => indexed.2) = s := by
  have hp := sortTests_randomOrder_perm P hash l
  refine List.Perm.eq_of_sorted ?_ (sortTests_randomOrder_pairwise P hash l) hs
    (hp.trans hperm.symm)
  intro a b ha hb hab hba
  exact hinj a (hp.subset ha) b (hperm.subset hb)
    (identity_eq_of_pair_incomparable hash a b hab hba)

/-! ## Registry: a change of run order -/

/-- C13. For a fixed seed `S` and a fixed sequence `H`, `sortTests` in random order
returns the same sequence, and leaves the shared generator in the same state,
whatever the state of the generator before the call and whatever `allowThrows()`
says: the generator is seeded anew from `S` before the basis is drawn, and the
result is the sequence that `S` and `H` alone determine. -/
theorem sortTests_randomOrder_deterministic {σ : Type} (P : Platform) (G : SimplePcg32 σ)
    (S : Nat) (allow1 allow2 : Bool) (H : List TestCaseHandle) (rng1 rng2 : σ) :
    sortTests P G ⟨.InRandomOrder, S, allow1⟩ H rng1
      = sortTests P G ⟨.InRandomOrder, S, allow2⟩ H rng2 ∧
    sortTests P G ⟨.InRandomOrder, S, allow1⟩ H
        (sortTests P G ⟨.InRandomOrder, S, allow1⟩ H rng1).2
      = sortTests P G ⟨.InRandomOrder, S, allow1⟩ H rng1 ∧
    (sortTests P G ⟨.InRandomOrder, S, allow1⟩ H rng1).1 =
      .ok ((P.sort pairLt (H.map (fun handle =>
        (HashTest.hash P ⟨specBasis G S⟩ handle.m_info, handle)))).map
          (fun indexed => indexed.2)) :=
  ⟨rfl, rfl, sortTests_randomOrder_eq P G S allow1 H rng1⟩

/-- C17. The function `sortTests` fails exactly when `config.runOrder()` is none of
`InDeclarationOrder`, `InLexicographicalOrder`, `InRandomOrder`; it then raises the
internal error "Unknown test order value!", returns no sequence and leaves the
generator as it was; for each of the three recognised values it returns a
sequence. -/
theorem sortTests_fails_iff_unknown_order {σ : Type} (P : Platform) (G : SimplePcg32 σ)
    (config : IConfig) (H : List TestCaseHandle) (rng : σ) :
    ((sortTests P G config H rng).1 = .error (.internalError "Unknown test order value!") ↔
      (config.runOrder ≠ .InDeclarationOrder ∧ config.runOrder ≠ .InLexicographicalOrder ∧
        config.runOrder ≠ .InRandomOrder)) ∧
    ((∃ e, (sortTests P G config H rng).1 = .error e) ↔
      (config.runOrder ≠ .InDeclarationOrder ∧ config.runOrder ≠ .InLexicographicalOrder ∧
        config.runOrder ≠ .InRandomOrder)) ∧
    ((config.runOrder ≠ .InDeclarationOrder ∧ config.runOrder ≠ .InLexicographicalOrder ∧
        config.runOrder ≠ .InRandomOrder) →
      (∀ view, (sortTests P G config H rng).1 ≠ .ok view) ∧
        (sortTests P G config H rng).2 = rng) ∧
    ((config.runOrder = .InDeclarationOrder ∨ config.runOrder = .InLexicographicalOrder ∨
        config.runOrder = .InRandomOrder) →
      ∃ view, (sortTests P G config H rng).1 = .ok view) := by
  obtain ⟨order, seed, allowThrows⟩ := config
  cases order <;> simp [sortTests]

/-! ## Registry: registration -/

theorem getAllTestsSorted_collections {σ : Type} (P : Platform) (G : SimplePcg32 σ)
    (r : TestRegistry) (config : IConfig) (rng : σ) :
    (r.getAllTestsSorted P G config rng).2.1.m_owned_test_infos = r.m_owned_test_infos ∧
    (r.getAllTestsSorted P G config rng).2.1.m_viewed_test_infos = r.m_viewed_test_infos ∧
    (r.getAllTestsSorted P G config rng).2.1.m_invokers = r.m_invokers ∧
    (r.getAllTestsSorted P G config rng).2.1.m_handles = r.m_handles := by
  unfold TestRegistry.getAllTestsSorted
  split
  · exact ⟨rfl, rfl, rfl, rfl⟩
  · split
    · split <;> exact ⟨rfl, rfl, rfl, rfl⟩
    · exact ⟨rfl, rfl, rfl, rfl⟩

theorem runCalls_collections {σ : Type} (P : Platform) (G : SimplePcg32 σ)
    (calls : List RegistryCall) :
    ∀ w : TestRegistry × σ,
      (runCalls P G w calls).1.m_owned_test_infos
        = w.1.m_owned_test_infos ++ (registrations calls).map (fun p => p.1) ∧
      (runCalls P G w calls).1.m_viewed_test_infos
        = w.1.m_viewed_test_infos ++ (registrations calls).map (fun p => p.1) ∧
      (runCalls P G w calls).1.m_invokers
        = w.1.m_invokers ++ (registrations calls).map (fun p => p.2) ∧
      (runCalls P G w calls).1.m_handles
        = w.1.m_handles ++ (registrations calls).map (fun p => ⟨p.1, p.2⟩) := by
  induction calls with
  | nil => intro w; simp [runCalls, registrations]
  | cons c rest ih =>
    intro w
    cases c with
    | registerTest testInfo testInvoker =>
      have h := ih (w.1.registerTest testInfo testInvoker, w.2)
      simpa [runCalls, registrations, RegistryCall.apply, TestRegistry.registerTest] using h
    | getAllTestsSorted config =>
      have h := ih (w.1.getAllTestsSorted P G config w.2).2
      obtain ⟨h1, h2, h3, h4⟩ := getAllTestsSorted_collections P G w.1 config w.2
      rw [h1, h2, h3, h4] at h
      simpa [runCalls, registrations, RegistryCall.apply] using h

/-- C14. The member function `registerTest` is total and makes no uniqueness
check: it appends the descriptor to the descriptors (owned and viewed), the
invoker to the invokers and their pairing to the handles, and leaves the cached
sorted view and the stored run order as they were. So after any sequence of
calls on a new registry that holds `n` registrations (queries in between or not,
duplicates or not), every collection has length `n`, `getAllInfos()` lists the
descriptors in registration order, and `getAllTests()[i]` pairs the `i`-th
registered descriptor with the `i`-th registered invoker. -/
theorem registerTest_appends {σ : Type} (P : Platform) (G : SimplePcg32 σ)
    (r : TestRegistry) (testInfo : TestCaseInfo) (testInvoker : Nat)
    (order : RunTests.InWhatOrder) (rng : σ) (calls : List RegistryCall) :
    r.registerTest testInfo testInvoker =
      ⟨r.m_owned_test_infos ++ [testInfo], r.m_viewed_test_infos ++ [testInfo],
        r.m_invokers ++ [testInvoker], r.m_handles ++ [⟨testInfo, testInvoker⟩],
        r.m_currentSortOrder, r.m_sortedFunctions⟩ ∧
    (runCalls P G (TestRegistry.initial order, rng) calls).1.getAllInfos
      = (registrations calls).map (fun p => p.1) ∧
    (runCalls P G (TestRegistry.initial order, rng) calls).1.m_owned_test_infos
      = (registrations calls).map (fun p => p.1) ∧
    (runCalls P G (TestRegistry.initial order, rng) calls).1.m_invokers
      = (registrations calls).map (fun p => p.2) ∧
    (runCalls P G (TestRegistry.initial order, rng) calls).1.getAllTests
      = (registrations calls).map (fun p => ⟨p.1, p.2⟩) ∧
    (runCalls P G (TestRegistry.initial order, rng) calls).1.getAllInfos.length
      = (registrations calls).length ∧
    (runCalls P G (TestRegistry.initial order, rng) calls).1.m_owned_test_infos.length
      = (registrations calls).length ∧
    (runCalls P G (TestRegistry.initial order, rng) calls).1.m_invokers.length
      = (registrations calls).length ∧
    (runCalls P G (TestRegistry.initial order, rng) calls).1.getAllTests.length
      = (registrations calls).length ∧
    (∀ (i : Nat) (d : TestCaseInfo) (v : Nat), (registrations calls)[i]? = some (d, v) →
      (runCalls P G (TestRegistry.initial order, rng) calls).1.getAllTests[i]? = some ⟨d, v⟩ ∧
      (runCalls P G (TestRegistry.initial order, rng) calls).1.getAllInfos[i]? = some d) := by
  obtain ⟨h1, h2, h3, h4⟩ := runCalls_collections P G calls (TestRegistry.initial order, rng)
  have e1 : (runCalls P G (TestRegistry.initial order, rng) calls).1.m_owned_test_infos
      = (registrations calls).map (fun p => p.1) := by
    simpa [TestRegistry.initial] using h1
  have e2 : (runCalls P G (TestRegistry.initial order, rng) calls).1.m_viewed_test_infos
      = (registrations calls).map (fun p => p.1) := by
    simpa [TestRegistry.initial] using h2
  have e3 : (runCalls P G (TestRegistry.initial order, rng) calls).1.m_invokers
      = (registrations calls).map (fun p => p.2) := by
    simpa [TestRegistry.initial] using h3
  have e4 : (runCalls P G (TestRegistry.initial order, rng) calls).1.m_handles
      = (registrations calls).map (fun p => ⟨p.1, p.2⟩) := by
    simpa [TestRegistry.initial] using h4
  refine ⟨rfl, e2, e1, e3, e4, ?_, ?_, ?_, ?_, ?_⟩
  · rw [TestRegistry.getAllInfos, e2, List.length_map]
  · rw [e1, List.length_map]
  · rw [e3, List.length_map]
  · rw [TestRegistry.getAllTests, e4, List.length_map]
  · intro i d v hi
    rw [TestRegistry.getAllTests, TestRegistry.getAllInfos, e4, e2, List.getElem?_map,
      List.getElem?_map, hi]
    exact ⟨rfl, rfl⟩

/-! ## Filter engine: subsequence and idempotence -/

/-- C18. For every sequence `H`, spec and config, `filterTests(H, spec, config)`
is a subsequence of `H`: it holds no handle that `H` does not hold, no handle more
often than `H` does, keeps the relative order of `H` and is no longer than `H`.
It is a function of its arguments, which it does not change, and filtering its
result again with the same spec and config returns that result. -/
theorem filterTests_sublist_idempotent (H : List TestCaseHandle) (testSpec : TestSpec)
    (config : IConfig) :
    (filterTests H testSpec config).Sublist H ∧
    (∀ h ∈ filterTests H testSpec config, h ∈ H) ∧
    (∀ h : TestCaseHandle, (filterTests H testSpec config).count h ≤ H.count h) ∧
    (filterTests H testSpec config).length ≤ H.length ∧
    filterTests (filterTests H testSpec config) testSpec config
      = filterTests H testSpec config := by
  have hsub : (filterTests H testSpec config).Sublist H := by
    rw [filterTests_eq_filter]
    exact List.filter_sublist _
  refine ⟨hsub, fun h hh => hsub.subset hh, fun h => hsub.count_le h, hsub.length_le, ?_⟩
  rw [filterTests_eq_filter, filterTests_eq_filter, List.filter_filter]
  simp

/-! ## Ordering engine: subsets and rearrangements of the input -/

theorem filter_mem_of_sublist {α : Type} [DecidableEq α] {l1 l : List α}
    (hsub : l1.Sublist l) (hnd : l.Nodup) : l.filter (fun x => decide (x ∈ l1)) = l1 := by
  induction hsub with
  | slnil => rfl
  | @cons l1 l a hsub ih =>
    rw [List.nodup_cons] at hnd
    have ha : a ∉ l1 := fun h => hnd.1 (hsub.subset h)
    rw [List.filter_cons, decide_eq_false ha]
    exact ih hnd.2
  | @cons₂ l1 l a hsub ih =>
    rw [List.nodup_cons] at hnd
    rw [List.filter_cons, decide_eq_true (List.mem_cons_self a l1)]
    simp only [if_true]
    congr 1
    rw [← ih hnd.2]
    apply List.filter_congr
    intro x hx
    have hxa : x ≠ a := fun h => hnd.1 (h ▸ hx)
    rw [ih hnd.2]
    simp [hxa]

theorem DistinctIdentities.nodup {l : List TestCaseHandle} (hd : DistinctIdentities l) :
    l.Nodup :=
  List.Pairwise.imp (fun h hab => h (by rw [hab])) hd

/-- C16. The random order is consistent across subsets. For every seed `S`, every
sequence `H` without duplicate and every subsequence `H1` of `H`, such as a result
of `filterTests` on `H`: `sortTests` in random order with seed `S` on `H1` returns
the result of `sortTests` in random order with seed `S` on `H`, restricted to the
handles of `H1`; so two tests present in both results come in the same relative
order. -/
theorem sortTests_randomOrder_subsequence {σ : Type} (P : Platform) (G : SimplePcg32 σ)
    (S : Nat) (allow1 allow2 : Bool) (H H1 : List TestCaseHandle) (rng1 rng2 : σ)
    (hnodup : ¬ HasDuplicate H) (hsub : H1.Sublist H) :
    ∃ full part : List TestCaseHandle,
      (sortTests P G ⟨.InRandomOrder, S, allow1⟩ H rng1).1 = .ok full ∧
      (sortTests P G ⟨.InRandomOrder, S, allow2⟩ H1 rng2).1 = .ok part ∧
      part = full.filter (fun h => decide (h ∈ H1)) ∧
      part.Sublist full := by
  have hd : DistinctIdentities H := (distinctIdentities_iff_not_hasDuplicate H).2 hnodup
  have hd1 : DistinctIdentities H1 := List.Pairwise.sublist hsub hd
  have hfull := sortTests_randomOrder_eq P G S allow1 H rng1
  have hpart := sortTests_randomOrder_eq P G S allow2 H1 rng2
  have hperm := sortTests_randomOrder_perm P (HashTest.hash P ⟨specBasis G S⟩) H
  have hsorted := sortTests_randomOrder_pairwise P (HashTest.hash P ⟨specBasis G S⟩) H
  have hfilter : ((P.sort pairLt (H.map (fun handle =>
      (HashTest.hash P ⟨specBasis G S⟩ handle.m_info, handle)))).map
        (fun indexed => indexed.2)).filter (fun h => decide (h ∈ H1)) |>.Perm H1 := by
    have h1 := hperm.filter (fun h => decide (h ∈ H1))
    rw [filter_mem_of_sublist hsub hd.nodup] at h1
    exact h1
  have heq := randomized_eq_of_sorted P (HashTest.hash P ⟨specBasis G S⟩) H1 _ hfilter
    (List.Pairwise.sublist (List.filter_sublist _) hsorted) (eq_of_distinctIdentities hd1)
  refine ⟨_, _, hfull, hpart, heq, ?_⟩
  rw [heq]
  exact List.filter_sublist _

/-- C16 at `H = [B, A, C]` and the tests that a filter on "every name but A" keeps,
`[B, C]`, seed 7: the random order of `H` is `[A, C, B]`, that of `[B, C]` is
`[C, B]`. -/
theorem sortTests_randomOrder_subsequence_witness :
    filterTests [testB, testA, testC] ⟨true, fun t => decide (t.name ≠ [65])⟩
      (mkConfig .InRandomOrder) = [testB, testC] ∧
    (sortTests (insertionPlatform true) lcg ⟨.InRandomOrder, 7, false⟩
      [testB, testA, testC] 0).1 = .ok [testA, testC, testB] ∧
    (sortTests (insertionPlatform true) lcg ⟨.InRandomOrder, 7, false⟩
      [testB, testC] 0).1 = .ok [testC, testB] ∧
    ∃ full part : List TestCaseHandle,
      (sortTests (insertionPlatform true) lcg ⟨.InRandomOrder, 7, false⟩
        [testB, testA, testC] 0).1 = .ok full ∧
      (sortTests (insertionPlatform true) lcg ⟨.InRandomOrder, 7, false⟩
        (filterTests [testB, testA, testC] ⟨true, fun t => decide (t.name ≠ [65])⟩
          (mkConfig .InRandomOrder)) 0).1 = .ok part ∧
      part = full.filter (fun h => decide (h ∈
        filterTests [testB, testA, testC] ⟨true, fun t => decide (t.name ≠ [65])⟩
          (mkConfig .InRandomOrder))) ∧
      part.Sublist full :=
  ⟨by decide, by decide, by decide,
    sortTests_randomOrder_subsequence (insertionPlatform true) lcg 7 false false
      [testB, testA, testC] _ 0 0 ((enforceNoDuplicateTestCases_ok_iff _).1 (by decide))
      (by decide)⟩

/-- C19. For an input without duplicate, the lexicographical and the random order
do not depend on the order of registration: for every config whose run order is
`InLexicographicalOrder` or `InRandomOrder`, every sequence `H` without duplicate
and every rearrangement `H1` of `H`, `sortTests(config, H1)` returns what
`sortTests(config, H)` returns. -/
theorem sortTests_perm_invariant {σ : Type} (P : Platform) (G : SimplePcg32 σ)
    (config : IConfig) (H H1 : List TestCaseHandle) (rng : σ)
    (horder : config.runOrder = .InLexicographicalOrder ∨ config.runOrder = .InRandomOrder)
    (hnodup : ¬ HasDuplicate H) (hperm : H1.Perm H) :
    sortTests P G config H1 rng = sortTests P G config H rng := by
  have hd : DistinctIdentities H := (distinctIdentities_iff_not_hasDuplicate H).2 hnodup
  have hd1 : DistinctIdentities H1 := hd.perm hperm
  obtain ⟨order, seed, allowThrows⟩ := config
  rcases horder with h | h
  · simp only at h
    subst h
    have hp := P.sort_perm TestCaseHandle.lt TestCaseHandle.strictWeakOrdering H
    have hs := P.sort_sorted TestCaseHandle.lt TestCaseHandle.strictWeakOrdering H
    have heq := sort_lt_eq_of_sorted P H1 (P.sort TestCaseHandle.lt H)
      (hp.trans hperm.symm) hs (eq_of_distinctIdentities hd1)
    simp only [sortTests, heq]
  · simp only at h
    subst h
    have h1 := sortTests_randomOrder_eq P G seed allowThrows H1 rng
    have h2 := sortTests_randomOrder_eq P G seed allowThrows H rng
    have heq := randomized_eq_of_sorted P (HashTest.hash P ⟨specBasis G seed⟩) H1 _
      ((sortTests_randomOrder_perm P (HashTest.hash P ⟨specBasis G seed⟩) H).trans hperm.symm)
      (sortTests_randomOrder_pairwise P (HashTest.hash P ⟨specBasis G seed⟩) H)
      (eq_of_distinctIdentities hd1)
    rw [heq, ← h2] at h1
    exact Prod.ext h1 rfl

/-- C19 at `[B, A, C]` and its rearrangement `[C, B, A]`, in lexicographical order:
both give `[A, B, C]`. -/
theorem sortTests_perm_invariant_witness :
    sortTests (insertionPlatform true) lcg (mkConfig .InLexicographicalOrder)
      [testB, testA, testC] 0 = (.ok [testA, testB, testC], 0) ∧
    sortTests (insertionPlatform true) lcg (mkConfig .InLexicographicalOrder)
        [testC, testB, testA] 0
      = sortTests (insertionPlatform true) lcg (mkConfig .InLexicographicalOrder)
        [testB, testA, testC] 0 :=
  ⟨by decide,
    sortTests_perm_invariant (insertionPlatform true) lcg (mkConfig .InLexicographicalOrder)
      [testB, testA, testC] [testC, testB, testA] 0 (Or.inl rfl)
      ((enforceNoDuplicateTestCases_ok_iff _).1 (by decide)) (by decide)⟩

/-! ## Class name extraction -/

theorem rfindFrom_le (s pat : ByteString) (p : Nat) :
    rfindFrom s pat p = npos ∨ rfindFrom s pat p ≤ p := by
  induction p with
  | zero =>
    unfold rfindFrom
    split
    · exact Or.inr (le_refl _)
    · exact Or.inl rfl
  | succ p ih =>
    unfold rfindFrom
    split
    · exact Or.inr (le_refl _)
    · exact ih.imp id (fun h => Nat.le_succ_of_le h)

theorem rfindFrom_eq_npos (s pat : ByteString) (p : Nat)
    (h : ∀ j, j ≤ p → compareAt s pat j = false) : rfindFrom s pat p = npos := by
  induction p with
  | zero => simp [rfindFrom, h 0 (le_refl _)]
  | succ p ih =>
    unfold rfindFrom
    rw [h (p + 1) (le_refl _)]
    simp only [Bool.false_eq_true, if_false]
    exact ih (fun j hj => h j (Nat.le_succ_of_le hj))

theorem rfindFrom_eq (s pat : ByteString) (i p : Nat) (hi : compareAt s pat i = true)
    (hip : i ≤ p) (h : ∀ j, i < j → j ≤ p → compareAt s pat j = false) :
    rfindFrom s pat p = i := by
  induction p with
  | zero =>
    have : i = 0 := Nat.le_zero.1 hip
    subst this
    simp [rfindFrom, hi]
  | succ p ih =>
    unfold rfindFrom
    rcases Nat.lt_or_ge i (p + 1) with hlt | hge
    · rw [h (p + 1) hlt (le_refl _)]
      simp only [Bool.false_eq_true, if_false]
      exact ih (Nat.lt_succ_iff.1 hlt) (fun j hij hj => h j hij (Nat.le_succ_of_le hj))
    · have : i = p + 1 := le_antisymm hip hge
      subst this
      simp [hi]

theorem getElem?_of_compareAt (s : ByteString) (a b : Byte) (j : Nat)
    (h : compareAt s [a, b] j = true) : s[j]? = some a ∧ s[j + 1]? = some b := by
  unfold compareAt at h
  have h0 : (s.drop j)[0]? = s[j]? := by rw [List.getElem?_drop]; rfl
  have h1 : (s.drop j)[1]? = s[j + 1]? := by rw [List.getElem?_drop]
  rw [← h0, ← h1]
  rcases hd : s.drop j with _ | ⟨x, _ | ⟨y, rest⟩⟩
  · rw [hd] at h; simp at h
  · rw [hd] at h; simp at h
  · rw [hd] at h
    simp only [List.length_cons, List.length_nil, List.take_succ_cons, List.take_zero,
      beq_iff_eq, List.cons.injEq, and_true] at h
    simp [h.1, h.2]

/-- In `&C::m`, with no colon in `C` nor in `m`, a colon stands at the two
positions after `C` only. -/
theorem colon_positions (C m : ByteString) (hC : (58 : Byte) ∉ C) (hm : (58 : Byte) ∉ m)
    (k : Nat) (h : ((38 : Byte) :: (C ++ 58 :: 58 :: m))[k]? = some 58) :
    k = C.length + 1 ∨ k = C.length + 2 := by
  cases k with
  | zero => simp at h
  | succ k =>
    rw [List.getElem?_cons_succ] at h
    rcases Nat.lt_or_ge k C.length with hk | hk
    · rw [List.getElem?_append_left hk] at h
      exact absurd (List.getElem?_mem h) hC
    · rw [List.getElem?_append_right hk] at h
      rcases hn : k - C.length with _ | _ | n
      · left; omega
      · right; omega
      · rw [hn] at h
        simp only [List.getElem?_cons_succ] at h
        exact absurd (List.getElem?_mem h) hm

theorem compareAt_qualified (C m : ByteString) (hC : (58 : Byte) ∉ C) (hm : (58 : Byte) ∉ m)
    (j : Nat) (hj : j ≠ C.length + 1) :
    compareAt ((38 : Byte) :: (C ++ 58 :: 58 :: m)) [58, 58] j = false := by
  cases h : compareAt ((38 : Byte) :: (C ++ 58 :: 58 :: m)) [58, 58] j with
  | false => rfl
  | true =>
    obtain ⟨h1, h2⟩ := getElem?_of_compareAt _ _ _ _ h
    have k1 := colon_positions C m hC hm j h1
    have k2 := colon_positions C m hC hm (j + 1) h2
    omega

theorem compareAt_qualified_self (C m : ByteString) :
    compareAt ((38 : Byte) :: (C ++ 58 :: 58 :: m)) [58, 58] (C.length + 1) = true := by
  unfold compareAt
  rw [List.drop_succ_cons, List.drop_left]
  simp

theorem extractClassName_qualified (C m : ByteString) (hC : (58 : Byte) ∉ C)
    (hm : (58 : Byte) ∉ m) (hlen : ((38 : Byte) :: (C ++ 58 :: 58 :: m)).length < 2 ^ 64) :
    extractClassName ((38 : Byte) :: (C ++ 58 :: 58 :: m)) = some C := by
  have hl : ((38 : Byte) :: (C ++ 58 :: 58 :: m)).length = C.length + m.length + 3 := by
    simp only [List.length_cons, List.length_append]
    omega
  rw [hl] at hlen
  have hpow : (2 : Nat) ^ 64 = 18446744073709551616 := by norm_num
  -- the last "::"
  have hlast : rfind ((38 : Byte) :: (C ++ 58 :: 58 :: m)) [58, 58] npos = C.length + 1 := by
    unfold rfind
    rw [if_pos (by rw [hl]; simp only [List.length_cons, List.length_nil]; omega)]
    refine rfindFrom_eq _ _ _ _ (compareAt_qualified_self C m) ?_ ?_
    · rw [hl]
      simp only [List.length_cons, List.length_nil, npos, hpow]
      omega
    · intro j hj _
      exact compareAt_qualified C m hC hm j (by omega)
  -- no "::" before it
  have hpen : rfind ((38 : Byte) :: (C ++ 58 :: 58 :: m)) [58, 58] C.length = npos := by
    unfold rfind
    rw [if_pos (by rw [hl]; simp only [List.length_cons, List.length_nil]; omega)]
    refine rfindFrom_eq_npos _ _ _ ?_
    intro j hj
    refine compareAt_qualified C m hC hm j ?_
    have : min (((38 : Byte) :: (C ++ 58 :: 58 :: m)).length - ([58, 58] : ByteString).length)
        C.length ≤ C.length := Nat.min_le_right _ _
    omega
  have h1 : (C.length + 1 + 2 ^ 64 - 1) % 2 ^ 64 = C.length := by
    rw [hpow] at hlen ⊢
    omega
  unfold extractClassName
  simp only [startsWith, beq_self_eq_true, if_true, hlast, h1, hpen]
  unfold substr
  rw [if_neg (by rw [hl]; omega)]
  simp [List.take_left']

theorem rfind_le_length (s pat : ByteString) (pos : Nat) :
    rfind s pat pos = npos ∨ rfind s pat pos ≤ s.length := by
  unfold rfind
  split
  · rcases rfindFrom_le s pat (min (s.length - pat.length) pos) with h | h
    · exact Or.inl h
    · right
      have h1 : min (s.length - pat.length) pos ≤ s.length - pat.length := Nat.min_le_left _ _
      omega
  · exact Or.inl rfl

theorem substr_in_range (s : ByteString) (pos count : Nat) (h : pos ≤ s.length) :
    ∃ r, substr s pos count = some r := by
  unfold substr
  rw [if_neg (by omega)]
  exact ⟨_, rfl⟩

theorem extractClassName_in_range (s : ByteString) :
    ∃ className, extractClassName s = some className := by
  unfold extractClassName
  by_cases hs : startsWith s 38 = true
  · have hlen : 1 ≤ s.length := by
      cases s with
      | nil => simp [startsWith] at hs
      | cons a l => simp
    simp only [hs, if_true]
    apply substr_in_range
    split
    · exact hlen
    · rename_i hne
      exact (rfind_le_length s [58, 58] _).resolve_left hne
  · simp only [hs, Bool.false_eq_true, if_false]
    exact ⟨s, rfl⟩

/-- C20. The function `extractClassName` returns its input unchanged when the
input does not start with `'&'`; on `"&C::m"`, for every class name `C` and method
name `m` that hold no `':'`, it returns `C`; and on no input does `substr` start
beyond the end of the string: the function always returns a string. -/
theorem extractClassName_spec (s C m : ByteString) :
    (startsWith s 38 = false → extractClassName s = some s) ∧
    ((58 : Byte) ∉ C → (58 : Byte) ∉ m →
      ((38 : Byte) :: (C ++ 58 :: 58 :: m)).length < 2 ^ 64 →
      extractClassName ((38 : Byte) :: (C ++ 58 :: 58 :: m)) = some C) ∧
    (∃ className, extractClassName s = some className) := by
  refine ⟨?_, extractClassName_qualified C m, extractClassName_in_range s⟩
  intro h
  unfold extractClassName
  simp only [h, Bool.false_eq_true, if_false]

/-- C20 at `"&Foo::bar"`, `"Foo"` and `"&"`: the results are `"Foo"`, `"Foo"` and
the empty string. -/
theorem extractClassName_spec_witness :
    extractClassName [38, 70, 111, 111, 58, 58, 98, 97, 114] = some [70, 111, 111] ∧
    extractClassName [70, 111, 111] = some [70, 111, 111] ∧
    extractClassName [38] = some [] ∧
    (extractClassName ((38 : Byte) :: ([70, 111, 111] ++ 58 :: 58 :: [98, 97, 114]))
      = some [70, 111, 111]) :=
  ⟨by decide, by decide, by decide,
    (extractClassName_spec [70, 111, 111] [70, 111, 111] [98, 97, 114]).2.1
      (by decide) (by decide) (by decide)⟩

end Catch
